import Mathlib

/-!
Shallow embedding of the MagnaChain wallet (`src/wallet/wallet.cpp`) and of the
peer address manager exercised by its conformance tests
(`src/test/addrman_tests.cpp`), together with proofs about the behaviour that
the specification describes.

Conventions:
* `MCAmount` (an `int64_t` in the source) is embedded as `Int`.
* identifiers such as transaction hashes, scripts and IP addresses are
  embedded as `Nat`; only their identity matters for the properties proved.
* randomness (`GetRandInt`, `FastRandomContext`) is passed in explicitly as a
  function parameter, and unbounded `while` loops are given explicit fuel,
  returning `Option`/a failure constructor when the fuel runs out.
* boundary subsystems (fee estimator, mempool, chain) appear as explicit
  function parameters, as in the source they are consulted through calls whose
  results the wallet only reads.
-/

/-- Monetary amount in base units (`MCAmount` = `int64_t` in `amount.h`). -/
abbrev MCAmount := Int

/-- `CENT` from `amount.h` (one hundredth of a coin; the spec fixes one coin at
10^8 base units, e.g. the fallback fee of 0.0002 coin/kB is 20000 base units). -/
def CENT : MCAmount := 1000000

/-- wallet.h: target minimum change amount, `MIN_CHANGE = CENT`. -/
def MIN_CHANGE : MCAmount := CENT

/-- wallet.h: final minimum change amount after paying for fees,
`MIN_FINAL_CHANGE = MIN_CHANGE/2`. -/
def MIN_FINAL_CHANGE : MCAmount := MIN_CHANGE / 2

/-- A fee rate (`MCFeeRate`), identified by its `nSatoshisPerK` field. -/
structure MCFeeRate where
  nSatoshisPerK : MCAmount
deriving DecidableEq, Repr

/-- Modelled from the spec: `MCFeeRate::GetFee` lives in `policy/feerate.cpp`,
which is not among the sources; the spec states that an explicit coin-control
rate yields a fee of exactly rate × size for the given transaction size, so the
fee of a rate over a byte size is embedded as their product. -/
def MCFeeRate.GetFee (r : MCFeeRate) (nBytes : Nat) : MCAmount :=
  r.nSatoshisPerK * nBytes

/-- Fee estimation mode of a coin control (`FeeEstimateMode`). -/
inductive FeeEstimateMode where
  | UNSET
  | ECONOMICAL
  | CONSERVATIVE
deriving DecidableEq, Repr

/-- The fields of `MCCoinControl` read by `MCWallet::GetMinimumFee`. -/
structure MCCoinControl where
  m_feerate : Option MCFeeRate
  fOverrideFeeRate : Bool
  m_confirm_target : Option Nat
  signalRbf : Bool
  m_fee_mode : FeeEstimateMode

/-- The ambient fee configuration consulted by `MCWallet::GetMinimumFee`:
the user-set globals (`::payTxFee`, `::nTxConfirmTarget`, `MCWallet::fallbackFee`,
`MCWallet::minTxFee`, `::minRelayTxFee`, `::maxTxFee`) together with the two
boundary subsystems, the smart-fee estimator (by confirmation target and
conservative flag) and the mempool minimum fee for a byte size. -/
structure FeeConfig where
  payTxFee : MCFeeRate
  nTxConfirmTarget : Nat
  fallbackFee : MCFeeRate
  minTxFee : MCFeeRate
  minRelayTxFee : MCFeeRate
  maxTxFee : MCAmount
  estimateSmartFee : Nat → Bool → MCFeeRate
  mempoolMinFee : Nat → MCAmount

/-- `MCWallet::GetRequiredFee`: `max(minTxFee.GetFee(n), ::minRelayTxFee.GetFee(n))`. -/
def GetRequiredFee (cfg : FeeConfig) (nTxBytes : Nat) : MCAmount :=
  max (cfg.minTxFee.GetFee nTxBytes) (cfg.minRelayTxFee.GetFee nTxBytes)

/-- The fee computed before the min/max clamp in `MCWallet::GetMinimumFee`
(branches 2 to 4 of the precedence comment, i.e. when no explicit coin-control
fee rate is present): the explicit confirmation target or the global flat fee,
else the smart estimate with fallback, floored at the mempool minimum fee. -/
def feeNeededNoExplicitRate (cfg : FeeConfig) (nTxBytes : Nat)
    (cc : MCCoinControl) : MCAmount :=
  if cc.m_confirm_target.isNone ∧ cfg.payTxFee.nSatoshisPerK ≠ 0 then
    cfg.payTxFee.GetFee nTxBytes
  else
    let target := match cc.m_confirm_target with
      | some t => t
      | none => cfg.nTxConfirmTarget
    let conservative_estimate :=
      match cc.m_fee_mode with
      | .CONSERVATIVE => true
      | .ECONOMICAL => false
      | .UNSET => !cc.signalRbf
    let fee0 := (cfg.estimateSmartFee target conservative_estimate).GetFee nTxBytes
    let fee1 := if fee0 = 0 then cfg.fallbackFee.GetFee nTxBytes else fee0
    let min_mempool_fee := cfg.mempoolMinFee nTxBytes
    if fee1 < min_mempool_fee then min_mempool_fee else fee1

/-- The final clamp of `MCWallet::GetMinimumFee`: the fee is floored at
`GetRequiredFee` and then capped at `maxTxFee`. -/
def clampFee (cfg : FeeConfig) (nTxBytes : Nat) (fee_needed : MCAmount) : MCAmount :=
  let required_fee := GetRequiredFee cfg nTxBytes
  let fee1 := if fee_needed < required_fee then required_fee else fee_needed
  if fee1 > cfg.maxTxFee then cfg.maxTxFee else fee1

/-- `MCWallet::GetMinimumFee` (wallet.cpp lines 3384-3439): parameter
precedence 1. coin-control fee rate (returned unclamped only when
`fOverrideFeeRate` is set), 2. coin-control confirmation target,
3. the global flat `payTxFee`, 4. smart estimation with fallback and the
mempool minimum; except in the override case the result is floored at the
required fee and capped at `maxTxFee`. -/
def GetMinimumFee (cfg : FeeConfig) (nTxBytes : Nat) (cc : MCCoinControl) : MCAmount :=
  match cc.m_feerate with
  | some rate =>
      let fee_needed := rate.GetFee nTxBytes
      if cc.fOverrideFeeRate then fee_needed
      else clampFee cfg nTxBytes fee_needed
  | none => clampFee cfg nTxBytes (feeNeededNoExplicitRate cfg nTxBytes cc)

/-- A fee configuration with a large minimum transaction fee, used to exhibit
that the required-fee floor still applies to an explicit coin-control rate. -/
def cexFeeConfig : FeeConfig where
  payTxFee := ⟨0⟩
  nTxConfirmTarget := 6
  fallbackFee := ⟨20000⟩
  minTxFee := ⟨1000⟩
  minRelayTxFee := ⟨1000⟩
  maxTxFee := 10000000000
  estimateSmartFee := fun _ _ => ⟨0⟩
  mempoolMinFee := fun _ => 0

/-- A coin control carrying an explicit fee rate of 1 base unit per kB,
without the override flag. -/
def cexCoinControl : MCCoinControl where
  m_feerate := some ⟨1⟩
  fOverrideFeeRate := false
  m_confirm_target := none
  signalRbf := false
  m_fee_mode := .UNSET

/-- C2 counterexample: with an explicit coin-control fee rate supplied but the
override flag clear, `GetMinimumFee` does not return rate × size: the
minimum-fee floor `GetRequiredFee` still applies (here rate × size = 100 while
the returned fee is 100000). -/
theorem GetMinimumFee_explicit_rate_still_clamped :
    cexCoinControl.m_feerate = some ⟨1⟩ ∧
    MCFeeRate.GetFee ⟨1⟩ 100 = 100 ∧
    GetMinimumFee cexFeeConfig 100 cexCoinControl = 100000 ∧
    GetMinimumFee cexFeeConfig 100 cexCoinControl ≠ MCFeeRate.GetFee ⟨1⟩ 100 := by
  refine ⟨rfl, rfl, rfl, ?_⟩
  decide

/-- C2 (amended): when an explicit coin-control fee rate is supplied the fee is
computed as rate × size, ignoring confirmation-target, flat-fee, fallback-fee,
estimator and mempool settings; it is returned exactly whenever the coin
control's `fOverrideFeeRate` flag is set, and otherwise it is still floored at
`max(minimum transaction fee, minimum relay fee)` and capped at the maximum
transaction fee. -/
theorem GetMinimumFee_explicit_rate (cfg : FeeConfig) (nTxBytes : Nat)
    (cc : MCCoinControl) (rate : MCFeeRate)
    (hrate : cc.m_feerate = some rate) :
    (cc.fOverrideFeeRate = true →
      GetMinimumFee cfg nTxBytes cc = rate.GetFee nTxBytes) ∧
    (cc.fOverrideFeeRate = false →
      GetMinimumFee cfg nTxBytes cc =
        min (max (rate.GetFee nTxBytes) (GetRequiredFee cfg nTxBytes)) cfg.maxTxFee) := by
  constructor
  · intro hov
    simp [GetMinimumFee, hrate, hov]
  · intro hov
    simp only [GetMinimumFee, hrate, hov, if_false, Bool.false_eq_true, clampFee]
    rcases le_or_lt (GetRequiredFee cfg nTxBytes) (rate.GetFee nTxBytes) with h1 | h1
    · rw [if_neg (not_lt.mpr h1), max_eq_left h1]
      rcases le_or_lt (rate.GetFee nTxBytes) cfg.maxTxFee with h2 | h2
      · rw [if_neg (not_lt.mpr h2), min_eq_left h2]
      · rw [if_pos h2, min_eq_right h2.le]
    · rw [if_pos h1, max_eq_right h1.le]
      rcases le_or_lt (GetRequiredFee cfg nTxBytes) cfg.maxTxFee with h2 | h2
      · rw [if_neg (not_lt.mpr h2), min_eq_left h2]
      · rw [if_pos h2, min_eq_right h2.le]

/-- C2 witness: the amended theorem applied at a concrete input (override set:
the rate is returned exactly; override clear: the clamp applies). -/
theorem GetMinimumFee_explicit_rate_witness :
    GetMinimumFee cexFeeConfig 100
      { cexCoinControl with fOverrideFeeRate := true } = 100 ∧
    GetMinimumFee cexFeeConfig 100 cexCoinControl =
      min (max 100 (GetRequiredFee cexFeeConfig 100)) cexFeeConfig.maxTxFee := by
  constructor
  · exact (GetMinimumFee_explicit_rate cexFeeConfig 100
      { cexCoinControl with fOverrideFeeRate := true } ⟨1⟩ rfl).1 rfl
  · exact (GetMinimumFee_explicit_rate cexFeeConfig 100 cexCoinControl ⟨1⟩ rfl).2 rfl

/-! ### Passphrase-derivation iteration calibration (C5)

`MCWallet::EncryptWallet` (wallet.cpp lines 672-681) and
`MCWallet::ChangeWalletPassphrase` (lines 409-418) compute a derivation
iteration count from two timed trial derivations (the exact value depends on
wall-clock measurements, a nondeterministic input over which the claim
quantifies) and then floor it at 25000 before the master-key record is
persisted with `WriteMasterKey`. -/

/-- The persisted fields of `MCMasterKey` relevant to calibration. -/
structure MCMasterKey where
  nDeriveIterations : Nat
deriving DecidableEq, Repr

/-- The floor applied to the timing-derived iteration count in both
`EncryptWallet` and `ChangeWalletPassphrase`:
`if (nDeriveIterations < 25000) nDeriveIterations = 25000`.
`preFloor` is the (unsigned) value produced by the two timed trials. -/
def calibrateDeriveIterations (preFloor : Nat) : Nat :=
  if preFloor < 25000 then 25000 else preFloor

/-- The master-key record persisted by a successful `MCWallet::EncryptWallet`,
as a function of the timing-dependent pre-floor iteration value. -/
def EncryptWalletMasterKey (preFloor : Nat) : MCMasterKey :=
  ⟨calibrateDeriveIterations preFloor⟩

/-- The master-key record persisted by a successful
`MCWallet::ChangeWalletPassphrase`, as a function of the timing-dependent
pre-floor iteration value (the same floor is applied). -/
def ChangeWalletPassphraseMasterKey (preFloor : Nat) : MCMasterKey :=
  ⟨calibrateDeriveIterations preFloor⟩

/-- C5: whatever the measured timings of the two trial derivations (hence
whatever pre-floor value they produce), the derivation-iteration count stored
in the master-key record persisted by `EncryptWallet` and by
`ChangeWalletPassphrase` is at least 25000. -/
theorem deriveIterations_at_least_25000 (preFloor : Nat) :
    25000 ≤ (EncryptWalletMasterKey preFloor).nDeriveIterations ∧
    25000 ≤ (ChangeWalletPassphraseMasterKey preFloor).nDeriveIterations := by
  constructor <;>
    · simp only [EncryptWalletMasterKey, ChangeWalletPassphraseMasterKey,
        calibrateDeriveIterations]
      split <;> omega

/-! ### Coin selection: `MCWallet::SelectCoinsMinConf` (C1)

wallet.cpp lines 2488-2638. The candidate vector is taken in its post-shuffle
iteration order (the shuffle at line 2545 permutes the input; the claims
quantify over every order). Each candidate carries the fields the loop reads:
`txout.nValue`, `fSpendable`, `nDepth`, the result of
`pcoin->IsFromMe(ISMINE_ALL)` and of
`mempool.TransactionWithinChainLimit(hash, nMaxAncestors)` (the mempool is a
boundary subsystem; its verdict for the given ancestor bound is a field of the
candidate). -/

/-- A candidate output as consumed by `SelectCoinsMinConf` (`MCOutput`
together with the derived `MCInputCoin` value). -/
structure MCOutput where
  value : MCAmount
  fSpendable : Bool
  nDepth : Int
  fromMe : Bool
  withinChainLimit : Bool
deriving DecidableEq, Repr

/-- The three `continue` filters at the head of the selection loop
(wallet.cpp lines 2549-2558): spendable, enough confirmations
(`nConfMine` for own transactions, `nConfTheirs` otherwise), and within the
mempool ancestor limit. -/
def eligibleOutput (nConfMine nConfTheirs : Int) (o : MCOutput) : Bool :=
  o.fSpendable &&
    decide ((if o.fromMe then nConfMine else nConfTheirs) ≤ o.nDepth) &&
    o.withinChainLimit

/-- The classification loop of `SelectCoinsMinConf` (lines 2547-2579).
`acc` is the running `(vValue, nTotalLower, coinLowestLarger)` triple;
a coin of exactly the target value short-circuits the whole call
(`Sum.inl`), mirroring the early `return true`. -/
def scanCoins (tgt : MCAmount) (nConfMine nConfTheirs : Int)
    (acc : List MCOutput × MCAmount × Option MCOutput) :
    List MCOutput → Sum MCOutput (List MCOutput × MCAmount × Option MCOutput)
  | [] => .inr acc
  | o :: rest =>
    if eligibleOutput nConfMine nConfTheirs o then
      if o.value = tgt then .inl o
      else if o.value < tgt + MIN_CHANGE then
        scanCoins tgt nConfMine nConfTheirs
          (acc.1 ++ [o], acc.2.1 + o.value, acc.2.2) rest
      else
        let larger := match acc.2.2 with
          | none => some o
          | some l => if o.value < l.value then some o else some l
        scanCoins tgt nConfMine nConfTheirs (acc.1, acc.2.1, larger) rest
    else
      scanCoins tgt nConfMine nConfTheirs acc rest

/-- State of `ApproximateBestSubset` (wallet.cpp lines 2488-2532):
the inclusion vector, running total and reached flag of the current
repetition, the best subset so far, and the cursor into the random stream. -/
structure ABSState where
  vfIncluded : List Bool
  nTotal : MCAmount
  fReachedTarget : Bool
  vfBest : List Bool
  nBest : MCAmount
  rix : Nat

/-- Body of the innermost loop of `ApproximateBestSubset` for coin index `i`
(lines 2505-2529): on pass 0 a coin flip (consuming one random bool) decides
inclusion, on pass 1 every not-yet-included coin is tried; a total reaching
the target records the subset if it improves on the best and backs the coin
out again. -/
def absStep (vValue : List MCAmount) (nTargetValue : MCAmount)
    (rng : Nat → Bool) (nPass : Nat) (st : ABSState) (i : Nat) : ABSState :=
  let cond := if nPass = 0 then rng st.rix else !(st.vfIncluded.getD i false)
  let st := if nPass = 0 then { st with rix := st.rix + 1 } else st
  if cond then
    let nTotal := st.nTotal + vValue.getD i 0
    let vfIncluded := st.vfIncluded.set i true
    if nTargetValue ≤ nTotal then
      let best :=
        if nTotal < st.nBest then (vfIncluded, nTotal) else (st.vfBest, st.nBest)
      { vfIncluded := vfIncluded.set i false,
        nTotal := nTotal - vValue.getD i 0,
        fReachedTarget := true,
        vfBest := best.1, nBest := best.2, rix := st.rix }
    else
      { st with vfIncluded := vfIncluded, nTotal := nTotal }
  else st

/-- One pass (`nPass`) of `ApproximateBestSubset` over all coin indices. -/
def absPass (vValue : List MCAmount) (nTargetValue : MCAmount)
    (rng : Nat → Bool) (nPass : Nat) (st : ABSState) : ABSState :=
  (List.range vValue.length).foldl (absStep vValue nTargetValue rng nPass) st

/-- One repetition of `ApproximateBestSubset` (lines 2500-2530): reset the
inclusion vector, then up to two passes, the second only when the first did
not reach the target. -/
def absRep (vValue : List MCAmount) (nTargetValue : MCAmount)
    (rng : Nat → Bool) (st : ABSState) : ABSState :=
  let st0 := { st with vfIncluded := List.replicate vValue.length false,
                       nTotal := 0, fReachedTarget := false }
  let st1 := absPass vValue nTargetValue rng 0 st0
  if st1.fReachedTarget then st1 else absPass vValue nTargetValue rng 1 st1

/-- The repetition loop of `ApproximateBestSubset`
(`for nRep < iterations && nBest != nTargetValue`). -/
def absLoop (vValue : List MCAmount) (nTargetValue : MCAmount)
    (rng : Nat → Bool) : Nat → ABSState → ABSState
  | 0, st => st
  | n + 1, st =>
    if st.nBest = nTargetValue then st
    else absLoop vValue nTargetValue rng n (absRep vValue nTargetValue rng st)

/-- `ApproximateBestSubset` (wallet.cpp lines 2488-2532) with its default 1000
iterations; `rng` stands for the fresh `FastRandomContext`. Returns
`(vfBest, nBest)`. -/
def ApproximateBestSubset (vValue : List MCAmount)
    (nTotalLower nTargetValue : MCAmount) (rng : Nat → Bool) :
    List Bool × MCAmount :=
  let st0 : ABSState :=
    { vfIncluded := [], nTotal := 0, fReachedTarget := false,
      vfBest := List.replicate vValue.length true, nBest := nTotalLower,
      rix := 0 }
  let st := absLoop vValue nTargetValue rng 1000 st0
  (st.vfBest, st.nBest)

/-- Ascending insertion by `txout.nValue` (`CompareValueOnly`). -/
def insertByValueAsc (x : MCOutput) : List MCOutput → List MCOutput
  | [] => [x]
  | y :: ys => if x.value < y.value then x :: y :: ys else y :: insertByValueAsc x ys

/-- `std::sort(vValue.begin(), vValue.end(), CompareValueOnly())` followed by
`std::reverse`: the lower coins sorted by descending value (the order among
equal values is unspecified in the source; a stable sort is used here). -/
def sortByValueDesc (l : List MCOutput) : List MCOutput :=
  (l.foldr insertByValueAsc []).reverse

/-- The coins selected by the best inclusion vector (lines 2619-2624). -/
def pickByFlags : List MCOutput → List Bool → List MCOutput
  | [], _ => []
  | _ :: _, [] => []
  | o :: os, f :: fs =>
    if f then o :: pickByFlags os fs else pickByFlags os fs

/-- `MCWallet::SelectCoinsMinConf` (wallet.cpp lines 2534-2638). The input
list is the candidate vector in post-shuffle order; `rng1`/`rng2` are the
random streams of the (up to) two `ApproximateBestSubset` calls. Returns
`some (selected coins, nValueRet)` for `return true` and `none` for
`return false`. -/
def SelectCoinsMinConf (nTargetValue : MCAmount) (nConfMine nConfTheirs : Int)
    (vCoins : List MCOutput) (rng1 rng2 : Nat → Bool) :
    Option (List MCOutput × MCAmount) :=
  match scanCoins nTargetValue nConfMine nConfTheirs ([], 0, none) vCoins with
  | .inl c => some ([c], c.value)
  | .inr (vValue, nTotalLower, coinLowestLarger) =>
    if nTotalLower = nTargetValue then
      some (vValue, nTotalLower)
    else if nTotalLower < nTargetValue then
      match coinLowestLarger with
      | none => none
      | some c => some ([c], c.value)
    else
      let vSorted := sortByValueDesc vValue
      let r1 := ApproximateBestSubset (vSorted.map MCOutput.value)
        nTotalLower nTargetValue rng1
      let r2 :=
        if r1.2 ≠ nTargetValue ∧ nTargetValue + MIN_CHANGE ≤ nTotalLower then
          ApproximateBestSubset (vSorted.map MCOutput.value)
            nTotalLower (nTargetValue + MIN_CHANGE) rng2
        else r1
      match coinLowestLarger with
      | some c =>
        if (r2.2 ≠ nTargetValue ∧ r2.2 < nTargetValue + MIN_CHANGE) ∨
            c.value ≤ r2.2 then
          some ([c], c.value)
        else
          let picked := pickByFlags vSorted r2.1
          some (picked, (picked.map MCOutput.value).sum)
      | none =>
        let picked := pickByFlags vSorted r2.1
        some (picked, (picked.map MCOutput.value).sum)

/-- The eligible coins below `tgt + MIN_CHANGE` (the `vValue` list built by the
classification loop), in candidate order. -/
def lowsOf (tgt : MCAmount) (cm ct : Int) (l : List MCOutput) : List MCOutput :=
  l.filter (fun o => eligibleOutput cm ct o && decide (o.value < tgt + MIN_CHANGE))

/-- The eligible coins at or above `tgt + MIN_CHANGE` (the candidates for
`coinLowestLarger`), in candidate order. -/
def highsOf (tgt : MCAmount) (cm ct : Int) (l : List MCOutput) : List MCOutput :=
  l.filter (fun o => eligibleOutput cm ct o && !decide (o.value < tgt + MIN_CHANGE))

/-- The running `coinLowestLarger` update (`coin.value < coinLowestLarger.value`
replaces, otherwise the earlier coin is kept), folded over a list. -/
def foldLarger (lg : Option MCOutput) (l : List MCOutput) : Option MCOutput :=
  l.foldl
    (fun acc o =>
      match acc with
      | none => some o
      | some c => if o.value < c.value then some o else some c)
    lg

theorem foldLarger_some (l : List MCOutput) :
    ∀ x, ∃ c, foldLarger (some x) l = some c := by
  induction l with
  | nil => intro x; exact ⟨x, rfl⟩
  | cons o rest ih =>
    intro x
    simp only [foldLarger, List.foldl_cons]
    by_cases h : o.value < x.value
    · simpa [h] using ih o
    · simpa [h] using ih x

theorem foldLarger_mem (l : List MCOutput) :
    ∀ lg c, foldLarger lg l = some c → lg = some c ∨ c ∈ l := by
  induction l with
  | nil => intro lg c h; exact Or.inl h
  | cons o rest ih =>
    intro lg c h
    match lg with
    | none =>
      rcases ih (some o) c h with h1 | h1
      · exact Or.inr (by simp [Option.some_inj.mp h1])
      · exact Or.inr (List.mem_cons_of_mem _ h1)
    | some x =>
      simp only [foldLarger, List.foldl_cons] at h
      by_cases hv : o.value < x.value
      · rw [if_pos hv] at h
        rcases ih (some o) c h with h1 | h1
        · exact Or.inr (by simp [Option.some_inj.mp h1])
        · exact Or.inr (List.mem_cons_of_mem _ h1)
      · rw [if_neg hv] at h
        rcases ih (some x) c h with h1 | h1
        · exact Or.inl h1
        · exact Or.inr (List.mem_cons_of_mem _ h1)

theorem foldLarger_min (l : List MCOutput) :
    ∀ lg c, foldLarger lg l = some c →
      (∀ o ∈ l, c.value ≤ o.value) ∧ (∀ x, lg = some x → c.value ≤ x.value) := by
  induction l with
  | nil =>
    intro lg c h
    exact ⟨fun o ho => absurd ho (List.not_mem_nil o),
      fun x hx => le_of_eq (by rw [hx] at h; exact congrArg MCOutput.value (Option.some_inj.mp h).symm)⟩
  | cons o rest ih =>
    intro lg c h
    match lg with
    | none =>
      have h2 := ih (some o) c h
      refine ⟨fun p hp => ?_, fun x hx => by cases hx⟩
      rcases List.mem_cons.mp hp with rfl | hp
      · exact h2.2 p rfl
      · exact h2.1 p hp
    | some x =>
      simp only [foldLarger, List.foldl_cons] at h
      by_cases hv : o.value < x.value
      · rw [if_pos hv] at h
        have h2 := ih (some o) c h
        refine ⟨fun p hp => ?_, fun y hy => ?_⟩
        · rcases List.mem_cons.mp hp with rfl | hp
          · exact h2.2 p rfl
          · exact h2.1 p hp
        · have := h2.2 o rfl
          exact this.trans (le_of_lt (by injection hy with hy2; rw [← hy2]; exact hv))
      · rw [if_neg hv] at h
        have h2 := ih (some x) c h
        refine ⟨fun p hp => ?_, fun y hy => ?_⟩
        · rcases List.mem_cons.mp hp with rfl | hp
          · exact (h2.2 x rfl).trans (not_lt.mp hv)
          · exact h2.1 p hp
        · injection hy with hy2; rw [← hy2]; exact h2.2 x rfl

/-- When an eligible coin of exactly the target value is present, the
classification loop short-circuits with such a coin. -/
theorem scanCoins_exact (tgt : MCAmount) (cm ct : Int) :
    ∀ (l : List MCOutput) (acc : List MCOutput × MCAmount × Option MCOutput),
      (∃ o ∈ l, eligibleOutput cm ct o = true ∧ o.value = tgt) →
      ∃ c, scanCoins tgt cm ct acc l = .inl c ∧ c ∈ l ∧
        eligibleOutput cm ct c = true ∧ c.value = tgt := by
  intro l
  induction l with
  | nil => intro acc h; simp at h
  | cons o rest ih =>
    intro acc h
    by_cases he : eligibleOutput cm ct o = true
    · by_cases hv : o.value = tgt
      · exact ⟨o, by simp [scanCoins, he, hv], List.mem_cons_self o rest, he, hv⟩
      · have hrest : ∃ p ∈ rest, eligibleOutput cm ct p = true ∧ p.value = tgt := by
          rcases h with ⟨p, hp, hpe, hpv⟩
          rcases List.mem_cons.mp hp with rfl | hp2
          · exact absurd hpv hv
          · exact ⟨p, hp2, hpe, hpv⟩
        by_cases hlow : o.value < tgt + MIN_CHANGE
        · rcases ih (acc.1 ++ [o], acc.2.1 + o.value, acc.2.2) hrest with ⟨c, hc, hcm, hce, hcv⟩
          exact ⟨c, by simp [scanCoins, he, hv, hlow, hc], List.mem_cons_of_mem _ hcm, hce, hcv⟩
        · rcases ih (acc.1, acc.2.1,
              match acc.2.2 with
              | none => some o
              | some l => if o.value < l.value then some o else some l) hrest with
            ⟨c, hc, hcm, hce, hcv⟩
          exact ⟨c, by simp [scanCoins, he, hv, hlow, hc], List.mem_cons_of_mem _ hcm, hce, hcv⟩
    · have hrest : ∃ p ∈ rest, eligibleOutput cm ct p = true ∧ p.value = tgt := by
        rcases h with ⟨p, hp, hpe, hpv⟩
        rcases List.mem_cons.mp hp with rfl | hp2
        · exact absurd hpe he
        · exact ⟨p, hp2, hpe, hpv⟩
      rcases ih acc hrest with ⟨c, hc, hcm, hce, hcv⟩
      exact ⟨c, by simp [scanCoins, he, hc], List.mem_cons_of_mem _ hcm, hce, hcv⟩

/-- When no eligible coin has exactly the target value, the classification
loop returns the accumulated lows, their sum and the folded lowest larger
coin. -/
theorem scanCoins_no_exact (tgt : MCAmount) (cm ct : Int) :
    ∀ (l : List MCOutput) (lows : List MCOutput) (tot : MCAmount)
      (lg : Option MCOutput),
      (∀ o ∈ l, eligibleOutput cm ct o = true → o.value ≠ tgt) →
      scanCoins tgt cm ct (lows, tot, lg) l =
        .inr (lows ++ lowsOf tgt cm ct l,
              tot + ((lowsOf tgt cm ct l).map MCOutput.value).sum,
              foldLarger lg (highsOf tgt cm ct l)) := by
  intro l
  induction l with
  | nil => intro lows tot lg _; simp [scanCoins, lowsOf, highsOf, foldLarger]
  | cons o rest ih =>
    intro lows tot lg h
    have hrest : ∀ p ∈ rest, eligibleOutput cm ct p = true → p.value ≠ tgt :=
      fun p hp => h p (List.mem_cons_of_mem _ hp)
    by_cases he : eligibleOutput cm ct o = true
    · have hv : o.value ≠ tgt := h o (List.mem_cons_self o rest) he
      by_cases hlow : o.value < tgt + MIN_CHANGE
      · rw [show scanCoins tgt cm ct (lows, tot, lg) (o :: rest) =
            scanCoins tgt cm ct (lows ++ [o], tot + o.value, lg) rest by
            simp [scanCoins, he, hv, hlow]]
        rw [ih _ _ _ hrest]
        have hlf : lowsOf tgt cm ct (o :: rest) = o :: lowsOf tgt cm ct rest := by
          simp [lowsOf, he, hlow]
        have hhf : highsOf tgt cm ct (o :: rest) = highsOf tgt cm ct rest := by
          simp [highsOf, he, hlow]
        rw [hlf, hhf]
        simp [List.append_assoc, add_assoc]
      · rw [show scanCoins tgt cm ct (lows, tot, lg) (o :: rest) =
            scanCoins tgt cm ct
              (lows, tot,
                match lg with
                | none => some o
                | some c => if o.value < c.value then some o else some c) rest by
            simp [scanCoins, he, hv, hlow]]
        rw [ih _ _ _ hrest]
        have hlf : lowsOf tgt cm ct (o :: rest) = lowsOf tgt cm ct rest := by
          simp [lowsOf, he, hlow]
        have hhf : highsOf tgt cm ct (o :: rest) = o :: highsOf tgt cm ct rest := by
          simp [highsOf, he, hlow]
        rw [hlf, hhf]
        rfl
    · rw [show scanCoins tgt cm ct (lows, tot, lg) (o :: rest) =
          scanCoins tgt cm ct (lows, tot, lg) rest by simp [scanCoins, he]]
      rw [ih _ _ _ hrest]
      have hlf : lowsOf tgt cm ct (o :: rest) = lowsOf tgt cm ct rest := by
        simp [lowsOf, he]
      have hhf : highsOf tgt cm ct (o :: rest) = highsOf tgt cm ct rest := by
        simp [highsOf, he]
      rw [hlf, hhf]

theorem mem_lowsOf {tgt : MCAmount} {cm ct : Int} {o : MCOutput}
    {l : List MCOutput} :
    o ∈ lowsOf tgt cm ct l ↔
      o ∈ l ∧ eligibleOutput cm ct o = true ∧ o.value < tgt + MIN_CHANGE := by
  simp [lowsOf, List.mem_filter, and_assoc]

theorem mem_highsOf {tgt : MCAmount} {cm ct : Int} {o : MCOutput}
    {l : List MCOutput} :
    o ∈ highsOf tgt cm ct l ↔
      o ∈ l ∧ eligibleOutput cm ct o = true ∧ tgt + MIN_CHANGE ≤ o.value := by
  simp [highsOf, List.mem_filter, and_assoc, not_lt]

/-- C1: the first three tiers of the `SelectCoinsMinConf` match policy over the
candidates passing the confirmation and ancestor-limit filters (candidate
values are nonnegative monetary amounts): an eligible coin of exactly the
target value is returned alone with total equal to the target; otherwise, if
the eligible coins below `target + MIN_CHANGE` sum exactly to the target, all
of them are returned; otherwise, if that sum is below the target, the call
fails when no eligible coin reaches the target and else returns the single
smallest eligible coin of value at least the target. -/
theorem SelectCoinsMinConf_policy (tgt : MCAmount) (cm ct : Int)
    (vCoins : List MCOutput) (rng1 rng2 : Nat → Bool)
    (hnn : ∀ o ∈ vCoins, 0 ≤ o.value) :
    ((∃ o ∈ vCoins, eligibleOutput cm ct o = true ∧ o.value = tgt) →
      ∃ c, SelectCoinsMinConf tgt cm ct vCoins rng1 rng2 = some ([c], tgt) ∧
        c ∈ vCoins ∧ eligibleOutput cm ct c = true ∧ c.value = tgt) ∧
    ((∀ o ∈ vCoins, eligibleOutput cm ct o = true → o.value ≠ tgt) →
      (((lowsOf tgt cm ct vCoins).map MCOutput.value).sum = tgt →
        SelectCoinsMinConf tgt cm ct vCoins rng1 rng2 =
          some (lowsOf tgt cm ct vCoins, tgt)) ∧
      (((lowsOf tgt cm ct vCoins).map MCOutput.value).sum < tgt →
        ((∀ o ∈ vCoins, eligibleOutput cm ct o = true → o.value < tgt) →
          SelectCoinsMinConf tgt cm ct vCoins rng1 rng2 = none) ∧
        ((∃ o ∈ vCoins, eligibleOutput cm ct o = true ∧ tgt ≤ o.value) →
          ∃ c, SelectCoinsMinConf tgt cm ct vCoins rng1 rng2 =
              some ([c], c.value) ∧
            c ∈ vCoins ∧ eligibleOutput cm ct c = true ∧ tgt ≤ c.value ∧
            ∀ o ∈ vCoins, eligibleOutput cm ct o = true → tgt ≤ o.value →
              c.value ≤ o.value))) := by
  have hmc : (0 : MCAmount) < MIN_CHANGE := by norm_num [MIN_CHANGE, CENT]
  constructor
  · intro hex
    rcases scanCoins_exact tgt cm ct vCoins ([], 0, none) hex with ⟨c, hc, hcm, hce, hcv⟩
    refine ⟨c, ?_, hcm, hce, hcv⟩
    simp [SelectCoinsMinConf, hc, hcv]
  · intro hne
    have hscan := scanCoins_no_exact tgt cm ct vCoins [] 0 none hne
    simp only [List.nil_append, zero_add] at hscan
    have hlowsum_ge : ∀ o ∈ lowsOf tgt cm ct vCoins,
        o.value ≤ ((lowsOf tgt cm ct vCoins).map MCOutput.value).sum := by
      intro o ho
      exact List.single_le_sum
        (fun x hx => by
          rcases List.mem_map.mp hx with ⟨p, hp, rfl⟩
          exact hnn p (mem_lowsOf.mp hp).1) _
        (List.mem_map.mpr ⟨o, ho, rfl⟩)
    constructor
    · intro hsum
      simp [SelectCoinsMinConf, hscan, hsum]
    · intro hsum
      have hsumne : ((lowsOf tgt cm ct vCoins).map MCOutput.value).sum ≠ tgt :=
        ne_of_lt hsum
      constructor
      · intro hall
        have hhigh : highsOf tgt cm ct vCoins = [] := by
          rcases hh : highsOf tgt cm ct vCoins with _ | ⟨o, rest⟩
          · rfl
          · exfalso
            have ho : o ∈ highsOf tgt cm ct vCoins := by
              rw [hh]; exact List.mem_cons_self o rest
            rcases mem_highsOf.mp ho with ⟨homem, hoe, holarge⟩
            have := hall o homem hoe
            linarith
        rw [hhigh] at hscan
        simp [SelectCoinsMinConf, hscan, hsumne, hsum, foldLarger]
      · intro hany
        rcases hany with ⟨w, hwmem, hwe, hwge⟩
        have hwne : w.value ≠ tgt := hne w hwmem hwe
        have hwgt : tgt < w.value := lt_of_le_of_ne hwge (Ne.symm hwne)
        have hnotlow : ∀ o ∈ vCoins, eligibleOutput cm ct o = true →
            tgt ≤ o.value → o ∈ highsOf tgt cm ct vCoins := by
          intro o homem hoe hoge
          apply mem_highsOf.mpr
          refine ⟨homem, hoe, ?_⟩
          by_contra hlt
          push_neg at hlt
          have holow : o ∈ lowsOf tgt cm ct vCoins := mem_lowsOf.mpr ⟨homem, hoe, hlt⟩
          have := hlowsum_ge o holow
          linarith
        have hwhigh : w ∈ highsOf tgt cm ct vCoins := hnotlow w hwmem hwe hwge
        have hhne : highsOf tgt cm ct vCoins ≠ [] := by
          intro h0; rw [h0] at hwhigh; exact absurd hwhigh (List.not_mem_nil w)
        obtain ⟨c, hc⟩ : ∃ c, foldLarger none (highsOf tgt cm ct vCoins) = some c := by
          rcases hh : highsOf tgt cm ct vCoins with _ | ⟨o, rest⟩
          · exact absurd hh hhne
          · exact foldLarger_some rest o
        have hcmem0 : c ∈ highsOf tgt cm ct vCoins := by
          rcases foldLarger_mem _ none c hc with h1 | h1
          · cases h1
          · exact h1
        rcases mem_highsOf.mp hcmem0 with ⟨hcmem, hce, hclarge⟩
        have hcge : tgt ≤ c.value := by linarith
        refine ⟨c, ?_, hcmem, hce, hcge, ?_⟩
        · simp [SelectCoinsMinConf, hscan, hsumne, hsum, hc]
        · intro o homem hoe hoge
          exact (foldLarger_min _ none c hc).1 o (hnotlow o homem hoe hoge)

/-- A fresh spendable 10-deep candidate of the given value, as the spec's coin
selection examples assume. -/
def specCoin (v : MCAmount) : MCOutput :=
  { value := v, fSpendable := true, nDepth := 10, fromMe := false,
    withinChainLimit := true }

/-- An arbitrary fixed random stream (coin selection tiers 1-3 consume none). -/
def rngFalse : Nat → Bool := fun _ => false

/-- C1 witness: the policy theorem applied to the spec examples: values
{1, 4, 9} with target 9 select exactly one coin, the 9-valued one, with total
9; values {2, 3} with target 5 select both with total exactly 5. -/
theorem SelectCoinsMinConf_policy_witness :
    (∃ c, SelectCoinsMinConf 9 1 6 [specCoin 1, specCoin 4, specCoin 9]
        rngFalse rngFalse = some ([c], 9) ∧
      c ∈ [specCoin 1, specCoin 4, specCoin 9] ∧
      eligibleOutput 1 6 c = true ∧ c.value = 9) ∧
    SelectCoinsMinConf 5 1 6 [specCoin 2, specCoin 3] rngFalse rngFalse =
      some (lowsOf 5 1 6 [specCoin 2, specCoin 3], 5) := by
  constructor
  · exact (SelectCoinsMinConf_policy 9 1 6 [specCoin 1, specCoin 4, specCoin 9]
      rngFalse rngFalse (by decide)).1 ⟨specCoin 9, by decide, by decide, by decide⟩
  · exact ((SelectCoinsMinConf_policy 5 1 6 [specCoin 2, specCoin 3]
      rngFalse rngFalse (by decide)).2 (by decide)).1 (by decide)

/-! ### Transaction abandonment: `MCWallet::AbandonTransaction` (C3)

wallet.cpp lines 1139-1194. Transaction and block hashes are embedded as
`Nat`; `GetDepthInMainChain()` depends on the anchor block and the active
chain (boundary), so each wallet transaction carries its depth as observed at
entry — sound here because the loop reads each transaction's depth exactly
once, before any modification of that transaction. `mapTxSpends` is the
ordered `multimap<MCOutPoint, uint256>` as a list sorted by outpoint;
`std::set<uint256>` iteration order is ascending, so the `todo`/`done` sets
are kept as sorted duplicate-free lists whose head is `*todo.begin()`. -/

/-- `CellMerkleTx::ABANDON_HASH`, the all-zero-but-last-byte-one sentinel
block hash, embedded as the distinguished value 1 of the block-hash space. -/
def ABANDON_HASH : Nat := 1

/-- The fields of a wallet transaction read or written by
`AbandonTransaction`: its inputs (prevout outpoints), anchor block hash and
in-block index, its main-chain depth and mempool presence as observed from
the boundary chain state, and whether `MarkDirty` has invalidated its cached
balances. -/
structure AbTx where
  vin : List (Nat × Nat)
  hashBlock : Nat
  nIndex : Int
  depth : Int
  inMempool : Bool
  cacheInvalidated : Bool
deriving DecidableEq, Repr

/-- `isAbandoned()`: the anchor equals the abandonment sentinel. -/
def AbTx.isAbandoned (t : AbTx) : Bool := t.hashBlock == ABANDON_HASH

/-- The wallet state touched by `AbandonTransaction`: the ledger, the
spent-outpoint index, and the hashes passed to `walletdb.WriteTx` in order. -/
structure AbWallet where
  mapWallet : List (Nat × AbTx)
  mapTxSpends : List ((Nat × Nat) × Nat)
  persisted : List Nat
deriving DecidableEq, Repr

/-- Association-list lookup into `mapWallet`. -/
def findTx (st : AbWallet) (h : Nat) : Option AbTx :=
  (st.mapWallet.find? (fun p => p.1 == h)).map Prod.snd

/-- Replace the entry for hash `h` in `mapWallet`. -/
def setTx (st : AbWallet) (h : Nat) (t : AbTx) : AbWallet :=
  { st with mapWallet := st.mapWallet.map (fun p => if p.1 == h then (h, t) else p) }

/-- Strict ordering of `MCOutPoint` keys (hash, then index). -/
def opLt (a b : Nat × Nat) : Bool :=
  a.1 < b.1 || (a.1 == b.1 && a.2 < b.2)

/-- wallet.cpp lines 1176-1182: start at
`mapTxSpends.lower_bound(MCOutPoint(hashTx, 0))` and collect spenders while
`iter->first.hash == now` (note the source anchors the lower bound at the
original `hashTx`, not at `now`). -/
def spendersScanned (m : List ((Nat × Nat) × Nat)) (hashTx now : Nat) : List Nat :=
  ((m.dropWhile (fun p => opLt p.1 (hashTx, 0))).takeWhile
    (fun p => p.1.1 == now)).map Prod.snd

/-- Insertion into a sorted duplicate-free `std::set<uint256>`. -/
def insSorted (x : Nat) : List Nat → List Nat
  | [] => [x]
  | y :: ys =>
    if x < y then x :: y :: ys
    else if x == y then y :: ys
    else y :: insSorted x ys

/-- `MarkDirty()` on the wallet transaction owning `h`, when present
(lines 1185-1189). -/
def markDirtyIfPresent (st : AbWallet) (h : Nat) : AbWallet :=
  match findTx st h with
  | none => st
  | some t => setTx st h { t with cacheInvalidated := true }

/-- The `while (!todo.empty())` loop of `AbandonTransaction`
(lines 1157-1191). `none` models an `assert` failure or fuel exhaustion. -/
def abandonLoop (hashTx : Nat) : Nat → List Nat → List Nat → AbWallet →
    Option AbWallet
  | 0, _, _, _ => none
  | _ + 1, [], _, st => some st
  | fuel + 1, now :: todoRest, done, st =>
    let done := insSorted now done
    match findTx st now with
    | none => none
    | some wtx =>
      if wtx.depth > 0 then none
      else if wtx.depth = 0 ∧ wtx.isAbandoned = false then
        if wtx.inMempool then none
        else
          let wtx2 := { wtx with nIndex := -1, hashBlock := ABANDON_HASH,
                                 cacheInvalidated := true }
          let st := setTx st now wtx2
          let st := { st with persisted := st.persisted ++ [now] }
          let spenders := spendersScanned st.mapTxSpends hashTx now
          let todo2 := spenders.foldl
            (fun t s => if s ∈ done then t else insSorted s t) todoRest
          let st := wtx.vin.foldl (fun acc p => markDirtyIfPresent acc p.1) st
          abandonLoop hashTx fuel todo2 done st
      else abandonLoop hashTx fuel todoRest done st

/-- `MCWallet::AbandonTransaction` (wallet.cpp lines 1139-1194): refuses when
the transaction is confirmed (positive depth) or in the mempool; otherwise
walks the spend index marking transactions abandoned. The result is
`some (returned boolean, new state)`; `none` is an assertion failure. -/
def AbandonTransaction (st : AbWallet) (hashTx : Nat) : Option (Bool × AbWallet) :=
  match findTx st hashTx with
  | none => none
  | some origtx =>
    if origtx.depth > 0 ∨ origtx.inMempool then some (false, st)
    else
      (abandonLoop hashTx
        ((st.mapWallet.length + 1) * (st.mapTxSpends.length + 1) + 1)
        [hashTx] [] st).map (fun s => (true, s))

/-- The failing input for C3: an unconfirmed chain `t1 ← t2 ← t3` where `t2`
spends output 0 of `t1` and `t3` spends output 0 of `t2`; none is in the
mempool or in a block. -/
def abWalletChain : AbWallet where
  mapWallet :=
    [(10, { vin := [(100, 0)], hashBlock := 0, nIndex := 0, depth := 0,
            inMempool := false, cacheInvalidated := false }),
     (20, { vin := [(10, 0)], hashBlock := 0, nIndex := 0, depth := 0,
            inMempool := false, cacheInvalidated := false }),
     (30, { vin := [(20, 0)], hashBlock := 0, nIndex := 0, depth := 0,
            inMempool := false, cacheInvalidated := false })]
  mapTxSpends := [((10, 0), 20), ((20, 0), 30), ((100, 0), 10)]
  persisted := []

/-- C3 (code bug): abandoning `t1` in the chain `t1 ← t2 ← t3` reports
success and abandons the direct child `t2`, but the grandchild `t3` is left
unmarked: the propagation loop anchors its spend-index scan at the original
`hashTx` (wallet.cpp line 1176) while comparing against the current `now`, so
for every `now ≠ hashTx` the scan stops immediately — abandonment does not
propagate transitively, contrary to the claim, to the analogous
`MarkConflicted` loop (line 1237, anchored at `now`), and to the comment at
lines 1175. -/
theorem AbandonTransaction_not_transitive :
    ((AbandonTransaction abWalletChain 10).map Prod.fst = some true) ∧
    ((AbandonTransaction abWalletChain 10).bind
        (fun r => (findTx r.2 10).map AbTx.isAbandoned) = some true) ∧
    ((AbandonTransaction abWalletChain 10).bind
        (fun r => (findTx r.2 20).map AbTx.isAbandoned) = some true) ∧
    ((AbandonTransaction abWalletChain 10).bind
        (fun r => (findTx r.2 30).map AbTx.isAbandoned) = some false) := by
  refine ⟨?_, ?_, ?_, ?_⟩ <;> rfl

/-! ### HD key derivation: `MCWallet::DeriveNewChildKey` / `GenerateNewKey` (C6)

wallet.cpp lines 146-225. The BIP32 derivation itself (`MCExtKey::Derive`) is
cryptographic boundary code; a leaf key is embedded as an opaque `Nat`
produced by a function `leafOf` of the chain (internal/external) and the
hardened child index — the wallet only compares leaf keys for knownness via
`HaveKey`. A keypath `m/0'/<c>'/<k>'` is represented structurally by the
chain flag `c` (internal = true) and leaf counter `k`, all three components
being derived with the hardened offset. -/

/-- `BIP32_HARDENED_KEY_LIMIT = 0x80000000`. -/
def BIP32_HARDENED_KEY_LIMIT : Nat := 0x80000000

/-- The counters of `CHDChain` (the master key id does not influence the
derivation loop given `leafOf`). -/
structure CHDChain where
  nExternalChainCounter : Nat
  nInternalChainCounter : Nat
deriving DecidableEq, Repr

/-- The structural form of the `hdKeypath` string written into the key
metadata: `⟨false, k⟩` denotes the external path and `⟨true, k⟩` the internal
path with leaf counter `k`, every component hardened. -/
structure HDKeypath where
  internal : Bool
  index : Nat
deriving DecidableEq, Repr

/-- The counter of the requested chain. -/
def chainCounter (internal : Bool) (hd : CHDChain) : Nat :=
  if internal then hd.nInternalChainCounter else hd.nExternalChainCounter

/-- `hdChain.nInternalChainCounter++` resp. `hdChain.nExternalChainCounter++`
(wallet.cpp lines 212 and 217). -/
def bumpChain (internal : Bool) (hd : CHDChain) : CHDChain :=
  if internal then { hd with nInternalChainCounter := hd.nInternalChainCounter + 1 }
  else { hd with nExternalChainCounter := hd.nExternalChainCounter + 1 }

theorem chainCounter_bump (internal : Bool) (hd : CHDChain) :
    chainCounter internal (bumpChain internal hd) = chainCounter internal hd + 1 := by
  cases internal <;> simp [chainCounter, bumpChain]

theorem chainCounter_bump_other (internal : Bool) (hd : CHDChain) :
    chainCounter (!internal) (bumpChain internal hd) =
      chainCounter (!internal) hd := by
  cases internal <;> simp [chainCounter, bumpChain]

/-- The `do ... while (HaveKey(...))` loop of `DeriveNewChildKey`
(wallet.cpp lines 205-219): derive the leaf at the current counter with the
hardened offset (`counter | BIP32_HARDENED_KEY_LIMIT`), record the keypath,
advance the counter, and repeat while the wallet already knows the derived
key. Returns the secret, the metadata keypath and the updated chain; the
source then persists the updated chain with `WriteHDChain` (throwing on
failure) before returning, so the returned chain is exactly the persisted
record. `none` is fuel exhaustion (every candidate leaf already known). -/
def DeriveNewChildKey (leafOf : Bool → Nat → Nat) (haveKey : Nat → Bool)
    (internal : Bool) : Nat → CHDChain → Option (Nat × HDKeypath × CHDChain)
  | 0, _ => none
  | fuel + 1, hd =>
    let ctr := chainCounter internal hd
    let childKey := leafOf internal (Nat.lor ctr BIP32_HARDENED_KEY_LIMIT)
    let keypath : HDKeypath := ⟨internal, ctr⟩
    let hd2 := bumpChain internal hd
    if haveKey childKey then DeriveNewChildKey leafOf haveKey internal fuel hd2
    else some (childKey, keypath, hd2)

/-- The HD branch of `MCWallet::GenerateNewKey` (wallet.cpp line 159): the
internal chain is requested only when the wallet supports the chain-split
feature (`CanSupportFeature(FEATURE_HD_SPLIT) ? internal : false`). -/
def GenerateNewKeyHD (leafOf : Bool → Nat → Nat) (haveKey : Nat → Bool)
    (canSupportSplit internal : Bool) (fuel : Nat) (hd : CHDChain) :
    Option (Nat × HDKeypath × CHDChain) :=
  DeriveNewChildKey leafOf haveKey (if canSupportSplit then internal else false)
    fuel hd

/-- Three successive external `GenerateNewKey` derivations with no
collisions, returning the keypaths in order and the final chain record (each
intermediate chain record is the one persisted by that derivation). -/
def threeExternalKeypaths (leafOf : Bool → Nat → Nat) (hd : CHDChain) :
    Option (List HDKeypath × CHDChain) :=
  match GenerateNewKeyHD leafOf (fun _ => false) true false 1 hd with
  | none => none
  | some (_, p1, hd1) =>
    match GenerateNewKeyHD leafOf (fun _ => false) true false 1 hd1 with
    | none => none
    | some (_, p2, hd2) =>
      match GenerateNewKeyHD leafOf (fun _ => false) true false 1 hd2 with
      | none => none
      | some (_, p3, hd3) => some ([p1, p2, p3], hd3)

theorem DeriveNewChildKey_spec (leafOf : Bool → Nat → Nat)
    (haveKey : Nat → Bool) (internal : Bool) :
    ∀ (fuel : Nat) (hd : CHDChain) (key : Nat) (path : HDKeypath)
      (hd2 : CHDChain),
      DeriveNewChildKey leafOf haveKey internal fuel hd = some (key, path, hd2) →
      key = leafOf internal (Nat.lor path.index BIP32_HARDENED_KEY_LIMIT) ∧
      haveKey key = false ∧
      path.internal = internal ∧
      chainCounter internal hd ≤ path.index ∧
      chainCounter internal hd2 = path.index + 1 ∧
      chainCounter (!internal) hd2 = chainCounter (!internal) hd ∧
      (∀ j, chainCounter internal hd ≤ j → j < path.index →
        haveKey (leafOf internal (Nat.lor j BIP32_HARDENED_KEY_LIMIT)) = true) := by
  intro fuel
  induction fuel with
  | zero => intro hd key path hd2 h; cases h
  | succ n ih =>
    intro hd key path hd2 h
    rw [DeriveNewChildKey] at h
    by_cases hk : haveKey (leafOf internal
        (Nat.lor (chainCounter internal hd) BIP32_HARDENED_KEY_LIMIT)) = true
    · rw [if_pos hk] at h
      obtain ⟨h1, h2, h3, h4, h5, h6, h7⟩ := ih (bumpChain internal hd) key path hd2 h
      rw [chainCounter_bump] at h4 h7
      rw [chainCounter_bump_other] at h6
      refine ⟨h1, h2, h3, by omega, h5, h6, ?_⟩
      intro j hj1 hj2
      rcases Nat.eq_or_lt_of_le hj1 with rfl | hj3
      · exact hk
      · exact h7 j hj3 hj2
    · rw [Bool.not_eq_true] at hk
      rw [if_neg (by simp [hk])] at h
      have hinj := Option.some_inj.mp h
      injection hinj with h1 h23
      injection h23 with h2 h3
      subst h1
      subst h3
      have hpi : path = ⟨internal, chainCounter internal hd⟩ := h2.symm
      subst hpi
      refine ⟨rfl, hk, rfl, le_refl _,
        chainCounter_bump internal hd, chainCounter_bump_other internal hd, ?_⟩
      intro j hj1 hj2
      simp only at hj2
      omega

/-- C6: every HD `GenerateNewKey` derives its leaf by hardened derivation
(`counter | 0x80000000`) on the external chain, or on the internal chain only
when the chain-split feature is supported; the returned key is one the wallet
does not already know, every leaf skipped on the way was already known, the
requested chain counter ends one past the used index (the other counter
untouched), and the returned chain record is the one persisted by
`WriteHDChain` before returning; moreover three successive external
derivations with no collisions from a fresh chain yield the keypaths
m/0'/0'/0', m/0'/0'/1', m/0'/0'/2' in order. -/
theorem GenerateNewKeyHD_spec (leafOf : Bool → Nat → Nat) (haveKey : Nat → Bool)
    (canSupportSplit internal : Bool) (fuel : Nat) (hd : CHDChain)
    (key : Nat) (path : HDKeypath) (hd2 : CHDChain)
    (h : GenerateNewKeyHD leafOf haveKey canSupportSplit internal fuel hd =
      some (key, path, hd2)) :
    (key = leafOf (if canSupportSplit then internal else false)
        (Nat.lor path.index BIP32_HARDENED_KEY_LIMIT) ∧
      haveKey key = false ∧
      path.internal = (if canSupportSplit then internal else false) ∧
      chainCounter (if canSupportSplit then internal else false) hd ≤ path.index ∧
      chainCounter (if canSupportSplit then internal else false) hd2 =
        path.index + 1 ∧
      chainCounter (!(if canSupportSplit then internal else false)) hd2 =
        chainCounter (!(if canSupportSplit then internal else false)) hd ∧
      (∀ j, chainCounter (if canSupportSplit then internal else false) hd ≤ j →
        j < path.index →
        haveKey (leafOf (if canSupportSplit then internal else false)
          (Nat.lor j BIP32_HARDENED_KEY_LIMIT)) = true)) ∧
    (∀ lf : Bool → Nat → Nat,
      threeExternalKeypaths lf ⟨0, 0⟩ =
        some ([⟨false, 0⟩, ⟨false, 1⟩, ⟨false, 2⟩], ⟨3, 0⟩)) :=
  ⟨DeriveNewChildKey_spec leafOf haveKey _ fuel hd key path hd2 h,
   fun _ => rfl⟩

/-- C6 witness: a concrete derivation where the wallet already knows the leaf
at index 0: the loop skips it, uses hardened index `1 | 0x80000000`, advances
the external counter to 2, and the keypath records m/0'/0'/1'. -/
theorem GenerateNewKeyHD_spec_witness :
    GenerateNewKeyHD (fun _ n => n)
        (fun k => k == Nat.lor 0 BIP32_HARDENED_KEY_LIMIT) true false 3 ⟨0, 0⟩ =
      some (2147483649, ⟨false, 1⟩, ⟨2, 0⟩) ∧
    (fun k => k == Nat.lor 0 BIP32_HARDENED_KEY_LIMIT) 2147483649 = false ∧
    chainCounter false (⟨2, 0⟩ : CHDChain) = 1 + 1 := by
  have h := GenerateNewKeyHD_spec (fun _ n => n)
    (fun k => k == Nat.lor 0 BIP32_HARDENED_KEY_LIMIT) true false 3 ⟨0, 0⟩
    2147483649 ⟨false, 1⟩ ⟨2, 0⟩ rfl
  exact ⟨rfl, h.1.2.1, h.1.2.2.2.2.1⟩

/-! ### Commit: `MCWallet::CommitTransaction` (C9)

wallet.cpp lines 3313-3352. The mempool admission verdict
(`AcceptToMemoryPool`) is a boundary outcome carried by the environment. -/

/-- The environment of a `CommitTransaction` call: the wallet's broadcast
setting and the mempool's admission verdict for the committed transaction. -/
structure CommitEnv where
  fBroadcastTransactions : Bool
  acceptToMemoryPool : Bool

/-- The wallet state touched by `CommitTransaction`: the ledger keys
(`mapWallet`), whether the reserved change key has been permanently consumed
(`reservekey.KeepKey()`), the getdata request counters and the relayed set. -/
structure CommitState where
  ledger : List Nat
  reserveKeyKept : Bool
  requestCount : List (Nat × Nat)
  relayed : List Nat
deriving DecidableEq, Repr

/-- The `AddToWallet` effect used by `CommitTransaction`: the transaction is
inserted into the ledger (or merged if already present — in both cases it is
present afterwards). -/
def addToWalletLedger (ledger : List Nat) (h : Nat) : List Nat :=
  if h ∈ ledger then ledger else ledger ++ [h]

/-- `MCWallet::CommitTransaction` (wallet.cpp lines 3313-3352): consume the
reserved key, record the transaction, initialise its request counter; when
broadcasting is enabled, attempt mempool admission — on failure return false
(with no rollback of any earlier step), on success relay and return true. -/
def CommitTransaction (env : CommitEnv) (st : CommitState) (txHash : Nat) :
    Bool × CommitState :=
  let st := { st with reserveKeyKept := true }
  let st := { st with ledger := addToWalletLedger st.ledger txHash }
  let st := { st with requestCount := st.requestCount ++ [(txHash, 0)] }
  if env.fBroadcastTransactions then
    if env.acceptToMemoryPool = false then (false, st)
    else (true, { st with relayed := st.relayed ++ [txHash] })
  else (true, st)

/-- C9: with broadcasting enabled and mempool admission failing,
`CommitTransaction` reports failure, yet the transaction is recorded in the
ledger, the reserved change key is permanently consumed, nothing previously
in the ledger is removed, and the transaction is not relayed — no rollback of
the wallet record occurs. -/
theorem CommitTransaction_admission_failure (env : CommitEnv)
    (st : CommitState) (txHash : Nat)
    (hb : env.fBroadcastTransactions = true)
    (ha : env.acceptToMemoryPool = false) :
    (CommitTransaction env st txHash).1 = false ∧
    txHash ∈ (CommitTransaction env st txHash).2.ledger ∧
    (CommitTransaction env st txHash).2.reserveKeyKept = true ∧
    (∀ x ∈ st.ledger, x ∈ (CommitTransaction env st txHash).2.ledger) ∧
    (CommitTransaction env st txHash).2.relayed = st.relayed := by
  have hres : CommitTransaction env st txHash =
      (false, { ledger := addToWalletLedger st.ledger txHash,
                reserveKeyKept := true,
                requestCount := st.requestCount ++ [(txHash, 0)],
                relayed := st.relayed }) := by
    simp [CommitTransaction, hb, ha]
  rw [hres]
  refine ⟨rfl, ?_, rfl, ?_, rfl⟩
  · by_cases hmem : txHash ∈ st.ledger <;> simp [addToWalletLedger, hmem]
  · intro x hx
    by_cases hmem : txHash ∈ st.ledger <;> simp [addToWalletLedger, hmem, hx]

/-- C9 witness: the theorem at a concrete wallet holding one transaction. -/
theorem CommitTransaction_admission_failure_witness :
    (CommitTransaction ⟨true, false⟩ ⟨[7], false, [], []⟩ 42).1 = false ∧
    42 ∈ (CommitTransaction ⟨true, false⟩ ⟨[7], false, [], []⟩ 42).2.ledger ∧
    (CommitTransaction ⟨true, false⟩ ⟨[7], false, [], []⟩ 42).2.reserveKeyKept = true ∧
    (∀ x ∈ [7], x ∈ (CommitTransaction ⟨true, false⟩ ⟨[7], false, [], []⟩ 42).2.ledger) ∧
    (CommitTransaction ⟨true, false⟩ ⟨[7], false, [], []⟩ 42).2.relayed = [] :=
  CommitTransaction_admission_failure ⟨true, false⟩ ⟨[7], false, [], []⟩ 42 rfl rfl

/-! ### Passphrase change and lock state: `MCWallet::ChangeWalletPassphrase` (C10)

wallet.cpp lines 391-435. The crypter operations (`SetKeyFromPassphrase`,
`Decrypt`, `Encrypt`, from the absent crypter.cpp) and the keystore `Unlock`
are fallible boundary calls whose boolean outcomes the source checks; each
master key carries the outcomes of the calls made against it. The two timed
calibration derivations (lines 410 and 414, results unchecked) do not affect
the lock state. -/

/-- Per-master-key outcomes of the fallible calls inside
`ChangeWalletPassphrase`: key derivation from the old passphrase, decryption
of the wrapped master secret, keystore unlock, final key derivation from the
new passphrase (line 422) and re-encryption (line 424). -/
structure MKOutcomes where
  oldDerive : Bool
  oldDecrypt : Bool
  unlockOk : Bool
  newDerive : Bool
  encryptOk : Bool
deriving DecidableEq, Repr

/-- The master-key loop of `ChangeWalletPassphrase` (lines 401-431), after
`Lock()` has been called, so the wallet is locked on entry. Returns
(returned boolean, wallet locked on exit). `fWasLocked` is the lock state
observed before the initial `Lock()`. -/
def cwpLoop (fWasLocked : Bool) : List MKOutcomes → Bool × Bool
  | [] => (false, true)
  | mk :: rest =>
    if mk.oldDerive = false then (false, true)
    else if mk.oldDecrypt = false then (false, true)
    else if mk.unlockOk then
      if mk.newDerive = false then (false, false)
      else if mk.encryptOk = false then (false, false)
      else (true, fWasLocked)
    else cwpLoop fWasLocked rest

/-- `MCWallet::ChangeWalletPassphrase` (wallet.cpp lines 391-435): record
whether the wallet was locked, lock it, then try each master key; a key that
unlocks the keystore leaves the wallet unlocked while it is re-wrapped under
the new passphrase, and on success the wallet is re-locked only when it was
locked before the call. Result: (returned boolean, locked after the call). -/
def ChangeWalletPassphrase (mapMasterKeys : List MKOutcomes)
    (lockedBefore : Bool) : Bool × Bool :=
  cwpLoop lockedBefore mapMasterKeys

/-- C10 counterexample: one master key for which the old passphrase derives,
decrypts and unlocks the keystore, but the final derivation under the new
passphrase fails (line 422-423): the call returns false with the wallet left
UNLOCKED, although it was locked before the call — contradicting the claim
that a false return always leaves the wallet locked. -/
theorem ChangeWalletPassphrase_false_but_unlocked :
    ChangeWalletPassphrase [⟨true, true, true, false, true⟩] true =
      (false, false) := rfl

/-- C10 (amended): when `ChangeWalletPassphrase` returns true the wallet is
left locked exactly when it was locked before the call; when it returns false
the wallet is left locked unless some master key unlocked the keystore and
the subsequent re-wrap under the new passphrase (derivation or encryption)
failed, in which case the wallet is left unlocked. -/
theorem ChangeWalletPassphrase_lock_state (mapMasterKeys : List MKOutcomes)
    (lockedBefore : Bool) :
    ((ChangeWalletPassphrase mapMasterKeys lockedBefore).1 = true →
      (ChangeWalletPassphrase mapMasterKeys lockedBefore).2 = lockedBefore) ∧
    ((ChangeWalletPassphrase mapMasterKeys lockedBefore).1 = false →
      (ChangeWalletPassphrase mapMasterKeys lockedBefore).2 = true ∨
      (∃ mk ∈ mapMasterKeys, mk.oldDerive = true ∧ mk.oldDecrypt = true ∧
        mk.unlockOk = true ∧ (mk.newDerive = false ∨ mk.encryptOk = false) ∧
        (ChangeWalletPassphrase mapMasterKeys lockedBefore).2 = false)) := by
  unfold ChangeWalletPassphrase
  induction mapMasterKeys with
  | nil =>
    refine ⟨fun h => ?_, fun _ => Or.inl rfl⟩
    simp [cwpLoop] at h
  | cons mk rest ih =>
    by_cases h1 : mk.oldDerive = false
    · rw [show cwpLoop lockedBefore (mk :: rest) = (false, true) by
        simp [cwpLoop, h1]]
      exact ⟨fun h => by simp at h, fun _ => Or.inl rfl⟩
    · by_cases h2 : mk.oldDecrypt = false
      · rw [show cwpLoop lockedBefore (mk :: rest) = (false, true) by
          simp [cwpLoop, h1, h2]]
        exact ⟨fun h => by simp at h, fun _ => Or.inl rfl⟩
      · by_cases h3 : mk.unlockOk = true
        · by_cases h4 : mk.newDerive = false
          · rw [show cwpLoop lockedBefore (mk :: rest) = (false, false) by
              simp [cwpLoop, h1, h2, h3, h4]]
            refine ⟨fun h => by simp at h, fun _ => Or.inr ?_⟩
            exact ⟨mk, List.mem_cons_self mk rest,
              by simpa using h1, by simpa using h2, h3, Or.inl h4, rfl⟩
          · by_cases h5 : mk.encryptOk = false
            · rw [show cwpLoop lockedBefore (mk :: rest) = (false, false) by
                simp [cwpLoop, h1, h2, h3, h4, h5]]
              refine ⟨fun h => by simp at h, fun _ => Or.inr ?_⟩
              exact ⟨mk, List.mem_cons_self mk rest,
                by simpa using h1, by simpa using h2, h3, Or.inr h5, rfl⟩
            · rw [show cwpLoop lockedBefore (mk :: rest) = (true, lockedBefore) by
                simp [cwpLoop, h1, h2, h3, h4, h5]]
              exact ⟨fun _ => rfl, fun h => by simp at h⟩
        · rw [show cwpLoop lockedBefore (mk :: rest) =
              cwpLoop lockedBefore rest by simp [cwpLoop, h1, h2, h3]]
          refine ⟨ih.1, fun h => ?_⟩
          rcases ih.2 h with hl | ⟨w, hw, hrest⟩
          · exact Or.inl hl
          · exact Or.inr ⟨w, List.mem_cons_of_mem _ hw, hrest⟩

/-- C10 witness: the amended theorem at concrete inputs — a successful change
from an unlocked wallet leaves it unlocked, and a failure before any unlock
(wrong old passphrase) leaves the wallet locked even though it was unlocked
before the call. -/
theorem ChangeWalletPassphrase_lock_state_witness :
    (ChangeWalletPassphrase [⟨true, true, true, true, true⟩] false).2 = false ∧
    ((ChangeWalletPassphrase [⟨true, false, true, true, true⟩] false).2 = true ∨
      (∃ mk ∈ [(⟨true, false, true, true, true⟩ : MKOutcomes)],
        mk.oldDerive = true ∧ mk.oldDecrypt = true ∧ mk.unlockOk = true ∧
        (mk.newDerive = false ∨ mk.encryptOk = false) ∧
        (ChangeWalletPassphrase [⟨true, false, true, true, true⟩] false).2 = false)) := by
  constructor
  · exact (ChangeWalletPassphrase_lock_state
      [⟨true, true, true, true, true⟩] false).1 rfl
  · exact (ChangeWalletPassphrase_lock_state
      [⟨true, false, true, true, true⟩] false).2 rfl

/-! ### Peer address manager: `GetAddr` quota (C7) and `Good` port quirk (C8)

The address manager implementation (addrman.h / addrman.cpp) is not among the
sources — only its conformance test suite is — so the operations are modelled
from the spec (§4.2) and checked against the behaviour the tests pin down. -/

/-- Modelled from the spec: a stored peer address record as `GetAddr` sees it
— its identity and whether the policy deems it "terrible" (stale or
repeatedly failing; freshly time-stamped addresses are never terrible). -/
structure AMRecord where
  ip : Nat
  port : Nat
  terrible : Bool
deriving DecidableEq, Repr

/-- The collection loop of the modelled `GetAddr`: walk the records in the
(randomly shuffled) visit order, skipping terrible records, until the quota
is filled. -/
def getAddrCollect : List AMRecord → Nat → List AMRecord
  | [], _ => []
  | r :: rest, quota =>
    if quota = 0 then []
    else if r.terrible then getAddrCollect rest quota
    else r :: getAddrCollect rest (quota - 1)

/-- Modelled from the spec: `CellAddrMan::GetAddr` (implementation absent
from the sources): it returns a uniformly sampled subset sized at 23% of the
current total address count (floor), never including addresses deemed
terrible. `records` is the manager's stored records in the random visit
order (the claims quantify over every order). -/
def GetAddr (records : List AMRecord) : List AMRecord :=
  getAddrCollect records (records.length * 23 / 100)

theorem getAddrCollect_not_terrible (l : List AMRecord) :
    ∀ quota r, r ∈ getAddrCollect l quota → r.terrible = false := by
  induction l with
  | nil => intro quota r h; cases h
  | cons x rest ih =>
    intro quota r h
    rw [getAddrCollect] at h
    by_cases hq : quota = 0
    · rw [if_pos hq] at h; cases h
    · rw [if_neg hq] at h
      by_cases ht : x.terrible = true
      · rw [if_pos ht] at h
        exact ih quota r h
      · rw [if_neg ht] at h
        rcases List.mem_cons.mp h with rfl | h2
        · exact Bool.not_eq_true _ ▸ ht
        · exact ih (quota - 1) r h2

theorem getAddrCollect_length_fresh (l : List AMRecord) :
    ∀ quota, (∀ r ∈ l, r.terrible = false) →
      (getAddrCollect l quota).length = min quota l.length := by
  induction l with
  | nil => intro quota _; simp [getAddrCollect]
  | cons x rest ih =>
    intro quota hfresh
    rw [getAddrCollect]
    by_cases hq : quota = 0
    · simp [hq]
    · rw [if_neg hq]
      have hx : x.terrible = false := hfresh x (List.mem_cons_self x rest)
      rw [if_neg (by simp [hx])]
      have := ih (quota - 1) (fun r hr => hfresh r (List.mem_cons_of_mem _ hr))
      simp only [List.length_cons, this]
      omega

/-- C7: the modelled `GetAddr` never returns a terrible address, returns the
empty vector on an empty manager, and whenever no stored address is terrible
(the tests' scenario: all records freshly time-stamped) it returns exactly
floor(23% × total) addresses. -/
theorem GetAddr_quota (records : List AMRecord) :
    (∀ r ∈ GetAddr records, r.terrible = false) ∧
    (records = [] → GetAddr records = []) ∧
    ((∀ r ∈ records, r.terrible = false) →
      (GetAddr records).length = records.length * 23 / 100) := by
  refine ⟨fun r hr => getAddrCollect_not_terrible records _ r hr,
    fun h => by rw [h]; rfl, fun hfresh => ?_⟩
  rw [GetAddr, getAddrCollect_length_fresh records _ hfresh]
  have : records.length * 23 / 100 ≤ records.length := by
    calc records.length * 23 / 100 ≤ records.length * 100 / 100 := by
          apply Nat.div_le_div_right
          exact Nat.mul_le_mul_left _ (by norm_num)
      _ = records.length := Nat.mul_div_cancel _ (by norm_num)
  omega

/-- 2006 fresh (never-terrible) records. -/
def records2006 : List AMRecord :=
  List.replicate 2006 { ip := 0, port := 8333, terrible := false }

/-- C7 witness: on an empty manager `GetAddr` returns nothing, and with 2006
fresh addresses stored it returns exactly 461 = floor(23% × 2006). -/
theorem GetAddr_quota_witness :
    GetAddr [] = [] ∧ (GetAddr records2006).length = 461 := by
  constructor
  · exact (GetAddr_quota []).2.1 rfl
  · have h := (GetAddr_quota records2006).2.2
      (fun r hr => by
        have := List.eq_of_mem_replicate hr
        rw [this])
    rw [h, records2006, List.length_replicate]

/-- Modelled from the spec: a stored address-manager entry — the full service
(IP and port) it was created from and whether it sits in the tried partition.
The manager's lookup map is keyed by IP only (§3: within the tried partition
an address is keyed by IP; two records differing only by port share one map
slot, as the conformance test addrman_ports exercises). -/
structure AMEntry where
  port : Nat
  fInTried : Bool
deriving DecidableEq, Repr

/-- Modelled from the spec: the address manager's record table keyed by IP. -/
structure AMState where
  recs : List (Nat × AMEntry)
deriving DecidableEq, Repr

/-- `Find` by IP only. -/
def amFind (st : AMState) (ip : Nat) : Option AMEntry :=
  (st.recs.find? (fun p => p.1 == ip)).map Prod.snd

/-- `size()`: number of stored records. -/
def amSize (st : AMState) : Nat := st.recs.length

/-- Modelled from the spec: `Good(addr)` — look the address up by IP; when the
stored record is not the exact same service (a different port for the same
IP), the call silently fails to move/insert, leaving the manager unchanged;
otherwise the record is promoted into the tried partition. -/
def amGood (st : AMState) (ip port : Nat) : AMState :=
  match amFind st ip with
  | none => st
  | some e =>
    if e.port ≠ port then st
    else
      let promote := fun (p : Nat × AMEntry) =>
        if p.1 == ip then (ip, { e with fInTried := true }) else p
      { recs := st.recs.map promote }

/-- Modelled from the spec: `Select(newOnly = true)` — an address drawn from
the new table only; here the first record outside the tried partition
(`none` models the `[::]:0` empty answer). -/
def amSelectNewOnly (st : AMState) : Option (Nat × Nat) :=
  (st.recs.find? (fun p => !p.2.fInTried)).map (fun p => (p.1, p.2.port))

/-- C8: calling `Good` on an address that differs only by port from the
stored record of the same IP does not promote anything into the tried table:
the state (hence the size) is unchanged, the occupant keeps its place, and
`Select(newOnly = true)` still returns the stored same-IP record. -/
theorem amGood_different_port (st : AMState) (ip port newPort : Nat)
    (hfind : amFind st ip = some ⟨port, false⟩)
    (hne : newPort ≠ port) :
    amGood st ip newPort = st ∧
    amSize (amGood st ip newPort) = amSize st ∧
    amFind (amGood st ip newPort) ip = some ⟨port, false⟩ ∧
    amSelectNewOnly (amGood st ip newPort) = amSelectNewOnly st := by
  have h : amGood st ip newPort = st := by
    rw [amGood, hfind]
    simp only
    rw [if_pos (fun hp => hne hp.symm)]
  exact ⟨h, by rw [h], by rw [h, hfind], by rw [h]⟩

/-- C8 witness: the quirk of the `addrman_ports` conformance test —
250.1.1.1:8333 (encoded IP 0xFA010101) is stored in the new table; `Good` on
250.1.1.1:8334 changes nothing, and the :8333 record is still selectable
with `newOnly = true`. -/
theorem amGood_different_port_witness :
    amGood ⟨[(0xFA010101, ⟨8333, false⟩)]⟩ 0xFA010101 8334 =
      ⟨[(0xFA010101, ⟨8333, false⟩)]⟩ ∧
    amSize (amGood ⟨[(0xFA010101, ⟨8333, false⟩)]⟩ 0xFA010101 8334) = 1 ∧
    amSelectNewOnly (amGood ⟨[(0xFA010101, ⟨8333, false⟩)]⟩ 0xFA010101 8334) =
      some (0xFA010101, 8333) := by
  have h := amGood_different_port ⟨[(0xFA010101, ⟨8333, false⟩)]⟩
    0xFA010101 8333 8334 rfl (by decide)
  refine ⟨h.1, h.2.1, ?_⟩
  rw [h.1]
  rfl

/-! ### Transaction construction: `MCWallet::CreateTransaction` (C4)

wallet.cpp lines 2872-3308, for ordinary spends (`sls == nullptr`, i.e. not
the smart-contract path). The embedding covers the recipient-output
construction with its dust check, the coin-selection/fee fixed-point loop
with the change-output dust fold, and the post-loop fee/change adjustments —
everything that determines the output values of a successfully built
transaction. The fee-sniping lock time, dummy signatures, signing, the
weight limit and the mempool-chain-limit check do not alter output values
(the latter two only turn a success into a failure), so they do not appear.
`GetDustThreshold`/`IsDust` live in the absent policy.cpp and are modelled
from the spec as a per-script threshold for the active relay rate and one
for the discard rate (`GetDiscardRate`, wallet.cpp line 2806, floors the
discard rate at the relay rate). Coin selection and transaction sizing are
boundary-parameterised. -/

/-- A transaction output (`MCTxOut`): value and script identity. -/
structure MCTxOut where
  nValue : MCAmount
  scriptPubKey : Nat
deriving DecidableEq, Repr

/-- A recipient (`MCRecipient`): script, amount, subtract-fee flag. -/
structure MCRecipient where
  scriptPubKey : Nat
  nAmount : MCAmount
  fSubtractFeeFromAmount : Bool
deriving DecidableEq, Repr

/-- The environment of a `CreateTransaction` call. `dustThreshold` is the
dust threshold of a script under the active relay fee rate
(`GetDustThreshold(out, ::dustRelayFee)`, modelled from the spec) and
`dustThresholdDiscard` the one under the discard rate; `selectCoins` returns
the values of the inputs chosen for a target (`SelectCoins`); `txSize` is
`GetVirtualTransactionSize` as a function of the input count and outputs;
`changeScript`/`changeProtoSize` describe the change prototype output;
`randInt` is `GetRandInt` for the change position. -/
structure CreateTxEnv where
  dustThreshold : Nat → MCAmount
  dustThresholdDiscard : Nat → MCAmount
  selectCoins : MCAmount → Option (List MCAmount)
  txSize : Nat → List MCTxOut → Nat
  cfg : FeeConfig
  cc : MCCoinControl
  changeScript : Nat
  changeProtoSize : Nat
  randInt : Nat → Nat

/-- The recipient-output construction of one loop iteration (wallet.cpp
lines 3002-3033): subtract the fee equally from each flagged recipient, the
first flagged one paying the remainder, and reject any output below the dust
threshold with the source's failure reason. -/
def buildRecipientOuts (e : CreateTxEnv) (nFeeRet : MCAmount) (nSub : Nat) :
    List MCRecipient → Bool → Except String (List MCTxOut)
  | [], _ => .ok []
  | r :: rest, fFirst =>
    let v1 := if r.fSubtractFeeFromAmount then r.nAmount - nFeeRet / nSub
              else r.nAmount
    let v2 := if r.fSubtractFeeFromAmount ∧ fFirst then v1 - nFeeRet % nSub
              else v1
    let txout : MCTxOut := ⟨v2, r.scriptPubKey⟩
    if txout.nValue < e.dustThreshold txout.scriptPubKey then
      .error
        (if r.fSubtractFeeFromAmount ∧ 0 < nFeeRet then
          (if txout.nValue < 0 then
            "The transaction amount is too small to pay the fee"
          else
            "The transaction amount is too small to send after the fee has been deducted")
        else "Transaction amount too small")
    else
      match buildRecipientOuts e nFeeRet nSub rest
        (if r.fSubtractFeeFromAmount then false else fFirst) with
      | .error s => .error s
      | .ok outs => .ok (txout :: outs)

/-- `txNew.vout.insert(position, newTxOut)`. -/
def insertAt : Nat → MCTxOut → List MCTxOut → List MCTxOut
  | 0, x, l => x :: l
  | _ + 1, x, [] => [x]
  | n + 1, x, y :: l => y :: insertAt n x l

/-- In-place modification of the output at a position. -/
def updateAt : Nat → (MCTxOut → MCTxOut) → List MCTxOut → List MCTxOut
  | _, _, [] => []
  | 0, f, y :: l => f y :: l
  | n + 1, f, y :: l => y :: updateAt n f l

/-- The change-output handling of one loop iteration (wallet.cpp lines
3047-3080): a positive change below the discard-rate dust threshold is folded
into the fee with the change position reported as -1; otherwise the change
output is inserted at a random position (or the caller-requested one, failing
when out of range); no change sets the position to -1. Returns
(outputs, fee, change position). -/
def addChangeOutput (e : CreateTxEnv) (recipOuts : List MCTxOut)
    (nChange nFeeRet : MCAmount) (nChangePosRequest : Int) :
    Except String (List MCTxOut × MCAmount × Int) :=
  if 0 < nChange then
    if nChange < e.dustThresholdDiscard e.changeScript then
      .ok (recipOuts, nFeeRet + nChange, -1)
    else if nChangePosRequest = -1 then
      let pos := e.randInt (recipOuts.length + 1) % (recipOuts.length + 1)
      .ok (insertAt pos ⟨nChange, e.changeScript⟩ recipOuts, nFeeRet,
        (pos : Int))
    else if nChangePosRequest < 0 ∨
        (recipOuts.length : Int) < nChangePosRequest then
      .error "Change index out of range"
    else
      .ok (insertAt nChangePosRequest.toNat ⟨nChange, e.changeScript⟩ recipOuts,
        nFeeRet, nChangePosRequest)
  else .ok (recipOuts, nFeeRet, -1)

/-- Outcome of `CreateTransaction`: the built outputs, fee and change
position, or a failure reason. -/
inductive CTResult where
  | ok (vout : List MCTxOut) (nFeeRet : MCAmount) (nChangePosInOut : Int)
  | fail (reason : String)
deriving DecidableEq, Repr

/-- The `while (true)` fee loop of `CreateTransaction` (wallet.cpp lines
2988-3210): rebuild the outputs for the current fee, select coins (unless
reusing the previous selection), place the change, measure the size, obtain
`GetMinimumFee`, and either finish (possibly retrying once with a change
output, or folding surplus fee into the change), or loop with the larger
fee. -/
def createTxLoop (e : CreateTxEnv) (vecSend : List MCRecipient)
    (nValue : MCAmount) (nSub : Nat) (nChangePosRequest : Int) :
    Nat → MCAmount → Bool → MCAmount → Nat → CTResult
  | 0, _, _, _, _ => .fail "iteration limit"
  | fuel + 1, nFeeRet, pick_new_inputs, nValueInPrev, nInputsPrev =>
    let nValueToSelect := nValue + (if nSub = 0 then nFeeRet else 0)
    match buildRecipientOuts e nFeeRet nSub vecSend true with
    | .error s => .fail s
    | .ok recipOuts =>
      let sel : Option (MCAmount × Nat) :=
        if pick_new_inputs then
          match e.selectCoins nValueToSelect with
          | none => none
          | some vals => some (vals.sum, vals.length)
        else some (nValueInPrev, nInputsPrev)
      match sel with
      | none => .fail "Insufficient funds"
      | some (nValueIn, nInputs) =>
        match addChangeOutput e recipOuts (nValueIn - nValueToSelect) nFeeRet
          nChangePosRequest with
        | .error s => .fail s
        | .ok (vout, nFeeRet2, nChangePos) =>
          let nBytes := e.txSize nInputs vout
          let nFeeNeeded := GetMinimumFee e.cfg nBytes e.cc
          if nFeeNeeded < e.cfg.minRelayTxFee.GetFee nBytes then
            .fail "Transaction too large for fee policy"
          else if nFeeNeeded ≤ nFeeRet2 then
            if nChangePos = -1 ∧ nSub = 0 ∧ pick_new_inputs = true ∧
                GetMinimumFee e.cfg (nBytes + e.changeProtoSize + 2) e.cc +
                  e.dustThresholdDiscard e.changeScript ≤ nFeeRet2 then
              createTxLoop e vecSend nValue nSub nChangePosRequest fuel
                (GetMinimumFee e.cfg (nBytes + e.changeProtoSize + 2) e.cc)
                false nValueIn nInputs
            else if nFeeNeeded < nFeeRet2 ∧ nChangePos ≠ -1 ∧ nSub = 0 then
              .ok (updateAt nChangePos.toNat
                    (fun o => { o with nValue := o.nValue + (nFeeRet2 - nFeeNeeded) })
                    vout)
                  nFeeNeeded nChangePos
            else .ok vout nFeeRet2 nChangePos
          else if pick_new_inputs = false then
            .fail "Transaction fee and change calculation failed"
          else
            if nChangePos ≠ -1 ∧ nSub = 0 ∧
                MIN_FINAL_CHANGE + (nFeeNeeded - nFeeRet2) ≤
                  (vout.getD nChangePos.toNat ⟨0, 0⟩).nValue then
              .ok (updateAt nChangePos.toNat
                    (fun o => { o with nValue := o.nValue - (nFeeNeeded - nFeeRet2) })
                    vout)
                  (nFeeRet2 + (nFeeNeeded - nFeeRet2)) nChangePos
            else
              createTxLoop e vecSend nValue nSub nChangePosRequest fuel
                nFeeNeeded (if 0 < nSub then false else pick_new_inputs)
                nValueIn nInputs

/-- The running-sum negative-amount check of wallet.cpp lines 2878-2889
(`none` = "Transaction amounts must not be negative"). -/
def sumRecipientsChecked : MCAmount → List MCRecipient → Option MCAmount
  | nValue, [] => some nValue
  | nValue, r :: rest =>
    if nValue < 0 ∨ r.nAmount < 0 then none
    else sumRecipientsChecked (nValue + r.nAmount) rest

/-- `MCWallet::CreateTransaction` (wallet.cpp lines 2872-3308) for ordinary
spends: amount and recipient-count validation, then the fee loop. -/
def CreateTransaction (e : CreateTxEnv) (vecSend : List MCRecipient)
    (isDataTransaction isSmartContract : Bool) (nChangePosRequest : Int)
    (fuel : Nat) : CTResult :=
  match sumRecipientsChecked 0 vecSend with
  | none => .fail "Transaction amounts must not be negative"
  | some nValue =>
    if vecSend.isEmpty ∧ isDataTransaction = false ∧ isSmartContract = false then
      .fail "Transaction must have at least one recipient"
    else
      createTxLoop e vecSend nValue
        (vecSend.filter MCRecipient.fSubtractFeeFromAmount).length
        nChangePosRequest fuel 0 true 0 0

theorem buildRecipientOuts_no_dust (e : CreateTxEnv) (nFeeRet : MCAmount)
    (nSub : Nat) :
    ∀ (l : List MCRecipient) (fFirst : Bool) (outs : List MCTxOut),
      buildRecipientOuts e nFeeRet nSub l fFirst = .ok outs →
      ∀ o ∈ outs, e.dustThreshold o.scriptPubKey ≤ o.nValue := by
  intro l
  induction l with
  | nil =>
    intro fFirst outs h o ho
    rw [buildRecipientOuts] at h
    injection h with h2
    rw [← h2] at ho
    cases ho
  | cons r rest ih =>
    intro fFirst outs h o ho
    rw [buildRecipientOuts] at h
    by_cases hd : (⟨if r.fSubtractFeeFromAmount ∧ fFirst then
          (if r.fSubtractFeeFromAmount then r.nAmount - nFeeRet / nSub
           else r.nAmount) - nFeeRet % nSub
        else (if r.fSubtractFeeFromAmount then r.nAmount - nFeeRet / nSub
           else r.nAmount), r.scriptPubKey⟩ : MCTxOut).nValue <
        e.dustThreshold r.scriptPubKey
    · rw [if_pos hd] at h
      cases h
    · rw [if_neg hd] at h
      rcases hrec : buildRecipientOuts e nFeeRet nSub rest
          (if r.fSubtractFeeFromAmount then false else fFirst) with s | outs2
      · rw [hrec] at h; cases h
      · rw [hrec] at h
        injection h with h2
        rw [← h2] at ho
        rcases List.mem_cons.mp ho with rfl | ho2
        · simpa using not_lt.mp hd
        · exact ih _ outs2 hrec o ho2

theorem buildRecipientOuts_length (e : CreateTxEnv) (nFeeRet : MCAmount)
    (nSub : Nat) :
    ∀ (l : List MCRecipient) (fFirst : Bool) (outs : List MCTxOut),
      buildRecipientOuts e nFeeRet nSub l fFirst = .ok outs →
      outs.length = l.length := by
  intro l
  induction l with
  | nil =>
    intro fFirst outs h
    rw [buildRecipientOuts] at h
    injection h with h2
    rw [← h2]
    rfl
  | cons r rest ih =>
    intro fFirst outs h
    rw [buildRecipientOuts] at h
    by_cases hd : (⟨if r.fSubtractFeeFromAmount ∧ fFirst then
          (if r.fSubtractFeeFromAmount then r.nAmount - nFeeRet / nSub
           else r.nAmount) - nFeeRet % nSub
        else (if r.fSubtractFeeFromAmount then r.nAmount - nFeeRet / nSub
           else r.nAmount), r.scriptPubKey⟩ : MCTxOut).nValue <
        e.dustThreshold r.scriptPubKey
    · rw [if_pos hd] at h
      cases h
    · rw [if_neg hd] at h
      rcases hrec : buildRecipientOuts e nFeeRet nSub rest
          (if r.fSubtractFeeFromAmount then false else fFirst) with s | outs2
      · rw [hrec] at h; cases h
      · rw [hrec] at h
        injection h with h2
        rw [← h2]
        simp [ih _ outs2 hrec]

theorem mem_insertAt (x : MCTxOut) :
    ∀ (n : Nat) (l : List MCTxOut) (o : MCTxOut),
      o ∈ insertAt n x l → o = x ∨ o ∈ l := by
  intro n
  induction n with
  | zero =>
    intro l o ho
    rw [insertAt] at ho
    rcases List.mem_cons.mp ho with rfl | h2
    · exact Or.inl rfl
    · exact Or.inr h2
  | succ m ih =>
    intro l o ho
    match l with
    | [] =>
      rw [insertAt] at ho
      rcases List.mem_cons.mp ho with rfl | h2
      · exact Or.inl rfl
      · cases h2
    | y :: ys =>
      rw [insertAt] at ho
      rcases List.mem_cons.mp ho with rfl | h2
      · exact Or.inr (List.mem_cons_self _ _)
      · rcases ih ys o h2 with h3 | h3
        · exact Or.inl h3
        · exact Or.inr (List.mem_cons_of_mem _ h3)

theorem updateAt_insertAt (f : MCTxOut → MCTxOut) (x : MCTxOut) :
    ∀ (n : Nat) (l : List MCTxOut), n ≤ l.length →
      updateAt n f (insertAt n x l) = insertAt n (f x) l := by
  intro n
  induction n with
  | zero => intro l _; rw [insertAt, updateAt, insertAt]
  | succ m ih =>
    intro l hlen
    match l with
    | [] => simp at hlen
    | y :: ys =>
      rw [insertAt, updateAt, insertAt, ih ys (by simpa using hlen)]

theorem getD_insertAt (x d : MCTxOut) :
    ∀ (n : Nat) (l : List MCTxOut), n ≤ l.length →
      (insertAt n x l).getD n d = x := by
  intro n
  induction n with
  | zero => intro l _; rw [insertAt]; rfl
  | succ m ih =>
    intro l hlen
    match l with
    | [] => simp at hlen
    | y :: ys =>
      rw [insertAt]
      simpa using ih ys (by simpa using hlen)

theorem addChangeOutput_spec (e : CreateTxEnv) (recipOuts : List MCTxOut)
    (nChange nFeeRet : MCAmount) (posReq : Int) (vout : List MCTxOut)
    (fee2 : MCAmount) (pos : Int)
    (h : addChangeOutput e recipOuts nChange nFeeRet posReq =
      .ok (vout, fee2, pos)) :
    (pos = -1 ∧ vout = recipOuts) ∨
    (∃ p : Nat, pos = (p : Int) ∧ p ≤ recipOuts.length ∧
      vout = insertAt p ⟨nChange, e.changeScript⟩ recipOuts ∧
      e.dustThresholdDiscard e.changeScript ≤ nChange) := by
  rw [addChangeOutput] at h
  by_cases h1 : 0 < nChange
  · rw [if_pos h1] at h
    by_cases h2 : nChange < e.dustThresholdDiscard e.changeScript
    · rw [if_pos h2] at h
      injection h with h3
      injection h3 with h4 h5
      injection h5 with h6 h7
      exact Or.inl ⟨h7.symm, h4.symm⟩
    · rw [if_neg h2] at h
      by_cases h3 : posReq = -1
      · rw [if_pos h3] at h
        injection h with h4
        injection h4 with h5 h6
        injection h6 with h7 h8
        refine Or.inr ⟨e.randInt (recipOuts.length + 1) % (recipOuts.length + 1),
          h8.symm, ?_, h5.symm, not_lt.mp h2⟩
        have := Nat.mod_lt (e.randInt (recipOuts.length + 1))
          (show 0 < recipOuts.length + 1 by omega)
        omega
      · rw [if_neg h3] at h
        by_cases h4 : posReq < 0 ∨ (recipOuts.length : Int) < posReq
        · rw [if_pos h4] at h
          cases h
        · rw [if_neg h4] at h
          push_neg at h4
          injection h with h5
          injection h5 with h6 h7
          injection h7 with h8 h9
          subst h9
          refine Or.inr ⟨posReq.toNat, ?_, ?_, h6.symm, not_lt.mp h2⟩
          · omega
          · omega
  · rw [if_neg h1] at h
    injection h with h2
    injection h2 with h3 h4
    injection h4 with h5 h6
    exact Or.inl ⟨h6.symm, h3.symm⟩

theorem iterOutputs_no_dust (e : CreateTxEnv)
    (hrd : e.dustThreshold e.changeScript ≤ e.dustThresholdDiscard e.changeScript)
    (recipOuts vout : List MCTxOut) (nChange nFeeRet fee0 : MCAmount)
    (posReq pos0 : Int)
    (hb : ∀ o ∈ recipOuts, e.dustThreshold o.scriptPubKey ≤ o.nValue)
    (hac : addChangeOutput e recipOuts nChange nFeeRet posReq =
      .ok (vout, fee0, pos0)) :
    (∀ o ∈ vout, e.dustThreshold o.scriptPubKey ≤ o.nValue) ∧
    (pos0 = -1 → vout = recipOuts) ∧
    (∀ p : Nat, pos0 = (p : Int) →
      p ≤ recipOuts.length ∧
      vout = insertAt p ⟨nChange, e.changeScript⟩ recipOuts ∧
      e.dustThresholdDiscard e.changeScript ≤ nChange) := by
  rcases addChangeOutput_spec e recipOuts nChange nFeeRet posReq vout fee0 pos0 hac with
    ⟨hpos, hv⟩ | ⟨p, hp, hle, hv, hd⟩
  · refine ⟨by rw [hv]; exact hb, fun _ => hv, fun p hp => ?_⟩
    rw [hpos] at hp
    exact absurd hp (by omega)
  · refine ⟨?_, fun hm1 => by rw [hp] at hm1; exact absurd hm1 (by omega),
      fun p2 hp2 => ?_⟩
    · intro o ho
      rw [hv] at ho
      rcases mem_insertAt _ p recipOuts o ho with rfl | ho2
      · calc e.dustThreshold e.changeScript
            ≤ e.dustThresholdDiscard e.changeScript := hrd
          _ ≤ nChange := hd
      · exact hb o ho2
    · have hpp : p2 = p := by
        rw [hp] at hp2
        omega
      rw [hpp]
      exact ⟨hle, hv, hd⟩

theorem createTxLoop_no_dust (e : CreateTxEnv) (vecSend : List MCRecipient)
    (nValue : MCAmount) (nSub : Nat) (posReq : Int)
    (hrd : e.dustThreshold e.changeScript ≤ e.dustThresholdDiscard e.changeScript)
    (hmfc : e.dustThreshold e.changeScript ≤ MIN_FINAL_CHANGE) :
    ∀ (fuel : Nat) (nFeeRet : MCAmount) (pick : Bool) (vip : MCAmount)
      (nip : Nat) (vout : List MCTxOut) (fee : MCAmount) (pos : Int),
      createTxLoop e vecSend nValue nSub posReq fuel nFeeRet pick vip nip =
        .ok vout fee pos →
      (∀ o ∈ vout, e.dustThreshold o.scriptPubKey ≤ o.nValue) ∧
      (pos = -1 → vout.length = vecSend.length) := by
  intro fuel
  induction fuel with
  | zero => intro nFeeRet pick vip nip vout fee pos h; cases h
  | succ n ih =>
    intro nFeeRet pick vip nip vout fee pos h
    rw [createTxLoop] at h
    rcases hbr : buildRecipientOuts e nFeeRet nSub vecSend true with s | recipOuts
    · rw [hbr] at h; cases h
    · rw [hbr] at h
      dsimp only at h
      have hbd := buildRecipientOuts_no_dust e nFeeRet nSub vecSend true recipOuts hbr
      have hbl := buildRecipientOuts_length e nFeeRet nSub vecSend true recipOuts hbr
      rcases hsel : (if pick = true then
          match e.selectCoins (nValue + if nSub = 0 then nFeeRet else 0) with
          | none => none
          | some vals => some (vals.sum, vals.length)
        else some (vip, nip)) with _ | ⟨nValueIn, nInputs⟩
      · rw [hsel] at h; cases h
      · rw [hsel] at h
        dsimp only at h
        rcases hac : addChangeOutput e recipOuts
            (nValueIn - (nValue + if nSub = 0 then nFeeRet else 0)) nFeeRet
            posReq with s | ⟨vout0, nFeeRet2, nChangePos⟩
        · rw [hac] at h; cases h
        · rw [hac] at h
          dsimp only at h
          obtain ⟨hA, hB, hC⟩ :=
            iterOutputs_no_dust e hrd recipOuts vout0 _ _ _ _ _ hbd hac
          by_cases h1 : GetMinimumFee e.cfg (e.txSize nInputs vout0) e.cc <
              e.cfg.minRelayTxFee.GetFee (e.txSize nInputs vout0)
          · rw [if_pos h1] at h; cases h
          · rw [if_neg h1] at h
            by_cases h2 : GetMinimumFee e.cfg (e.txSize nInputs vout0) e.cc ≤ nFeeRet2
            · rw [if_pos h2] at h
              by_cases h3 : nChangePos = -1 ∧ nSub = 0 ∧ pick = true ∧
                  GetMinimumFee e.cfg
                      (e.txSize nInputs vout0 + e.changeProtoSize + 2) e.cc +
                    e.dustThresholdDiscard e.changeScript ≤ nFeeRet2
              · rw [if_pos h3] at h
                exact ih _ _ _ _ _ _ _ h
              · rw [if_neg h3] at h
                by_cases h4 :
                    GetMinimumFee e.cfg (e.txSize nInputs vout0) e.cc < nFeeRet2 ∧
                    nChangePos ≠ -1 ∧ nSub = 0
                · rw [if_pos h4] at h
                  injection h with hv hf hp
                  obtain ⟨p, hp0⟩ : ∃ p : Nat, nChangePos = (p : Int) := by
                    rcases addChangeOutput_spec e recipOuts _ _ _ _ _ _ hac with
                      ⟨hx, _⟩ | ⟨p, hx, _, _, _⟩
                    · exact absurd hx h4.2.1
                    · exact ⟨p, hx⟩
                  obtain ⟨hple, hveq, hdch⟩ := hC p hp0
                  have htn : nChangePos.toNat = p := by rw [hp0]; omega
                  have hchv : e.dustThreshold e.changeScript ≤
                      nValueIn - (nValue + if nSub = 0 then nFeeRet else 0) :=
                    le_trans hrd hdch
                  have hextra : 0 <
                      nFeeRet2 - GetMinimumFee e.cfg (e.txSize nInputs vout0) e.cc := by
                    have := h4.1
                    linarith
                  rw [hveq] at hextra
                  rw [← hv, htn]
                  constructor
                  · intro o ho
                    rw [hveq, updateAt_insertAt _ _ p recipOuts hple] at ho
                    rcases mem_insertAt _ p recipOuts o ho with rfl | ho2
                    · simp only
                      linarith
                    · exact hbd o ho2
                  · intro hm1
                    rw [← hp, hp0] at hm1
                    exact absurd hm1 (by omega)
                · rw [if_neg h4] at h
                  injection h with hv hf hp
                  rw [← hv]
                  refine ⟨hA, fun hm1 => ?_⟩
                  rw [← hp] at hm1
                  rw [hB hm1, hbl]
            · rw [if_neg h2] at h
              by_cases h5 : pick = false
              · rw [if_pos h5] at h; cases h
              · rw [if_neg h5] at h
                by_cases h6 : nChangePos ≠ -1 ∧ nSub = 0 ∧
                    MIN_FINAL_CHANGE +
                      (GetMinimumFee e.cfg (e.txSize nInputs vout0) e.cc - nFeeRet2) ≤
                      (vout0.getD nChangePos.toNat ⟨0, 0⟩).nValue
                · rw [if_pos h6] at h
                  injection h with hv hf hp
                  obtain ⟨p, hp0⟩ : ∃ p : Nat, nChangePos = (p : Int) := by
                    rcases addChangeOutput_spec e recipOuts _ _ _ _ _ _ hac with
                      ⟨hx, _⟩ | ⟨p, hx, _, _, _⟩
                    · exact absurd hx h6.1
                    · exact ⟨p, hx⟩
                  obtain ⟨hple, hveq, hdch⟩ := hC p hp0
                  have htn : nChangePos.toNat = p := by rw [hp0]; omega
                  have hgd : (vout0.getD nChangePos.toNat ⟨0, 0⟩).nValue =
                      nValueIn - (nValue + if nSub = 0 then nFeeRet else 0) := by
                    rw [hveq, htn, getD_insertAt _ _ p recipOuts hple]
                  have h63 := h6.2.2
                  rw [hgd] at h63
                  rw [hveq] at h63
                  rw [← hv, htn]
                  constructor
                  · intro o ho
                    rw [hveq, updateAt_insertAt _ _ p recipOuts hple] at ho
                    rcases mem_insertAt _ p recipOuts o ho with rfl | ho2
                    · simp only
                      linarith
                    · exact hbd o ho2
                  · intro hm1
                    rw [← hp, hp0] at hm1
                    exact absurd hm1 (by omega)
                · rw [if_neg h6] at h
                  exact ih _ _ _ _ _ _ _ h

theorem buildRecipientOuts_dust_recipient (e : CreateTxEnv)
    (nFeeRet : MCAmount) (nSub : Nat) :
    ∀ (l : List MCRecipient) (fFirst : Bool),
      (∃ r ∈ l, r.fSubtractFeeFromAmount = false ∧
        r.nAmount < e.dustThreshold r.scriptPubKey) →
      ∃ s, buildRecipientOuts e nFeeRet nSub l fFirst = .error s := by
  intro l
  induction l with
  | nil => intro fFirst h; simp at h
  | cons r rest ih =>
    intro fFirst h
    rw [buildRecipientOuts]
    by_cases hd : (⟨if r.fSubtractFeeFromAmount ∧ fFirst then
          (if r.fSubtractFeeFromAmount then r.nAmount - nFeeRet / nSub
           else r.nAmount) - nFeeRet % nSub
        else (if r.fSubtractFeeFromAmount then r.nAmount - nFeeRet / nSub
           else r.nAmount), r.scriptPubKey⟩ : MCTxOut).nValue <
        e.dustThreshold r.scriptPubKey
    · rw [if_pos hd]
      exact ⟨_, rfl⟩
    · rw [if_neg hd]
      have hrest : ∃ p ∈ rest, p.fSubtractFeeFromAmount = false ∧
          p.nAmount < e.dustThreshold p.scriptPubKey := by
        rcases h with ⟨p, hp, hps, hpd⟩
        rcases List.mem_cons.mp hp with rfl | hp2
        · exfalso
          apply hd
          simp only [hps, false_and, if_false, Bool.false_eq_true, and_false]
          simpa using hpd
        · exact ⟨p, hp2, hps, hpd⟩
      rcases ih (if r.fSubtractFeeFromAmount then false else fFirst) hrest with ⟨s, hs⟩
      rw [hs]
      exact ⟨s, rfl⟩

theorem createTxLoop_dust_recipient_fails (e : CreateTxEnv)
    (vecSend : List MCRecipient) (nValue : MCAmount) (nSub : Nat)
    (posReq : Int)
    (hdr : ∃ r ∈ vecSend, r.fSubtractFeeFromAmount = false ∧
      r.nAmount < e.dustThreshold r.scriptPubKey) :
    ∀ (fuel : Nat) (nFeeRet : MCAmount) (pick : Bool) (vip : MCAmount)
      (nip : Nat) (vout : List MCTxOut) (fee : MCAmount) (pos : Int),
      createTxLoop e vecSend nValue nSub posReq fuel nFeeRet pick vip nip ≠
        .ok vout fee pos := by
  intro fuel
  match fuel with
  | 0 => intro nFeeRet pick vip nip vout fee pos h; cases h
  | n + 1 =>
    intro nFeeRet pick vip nip vout fee pos h
    rcases buildRecipientOuts_dust_recipient e nFeeRet nSub vecSend true hdr with ⟨s, hs⟩
    rw [createTxLoop, hs] at h
    cases h

/-- C4: transactions built by `CreateTransaction` never carry a dust output.
Under the facts that the discard-rate dust threshold of the change script is
at least its relay-rate threshold (`GetDiscardRate`, wallet.cpp line 2806)
and that the relay-rate threshold does not exceed `MIN_FINAL_CHANGE` (true at
the default fee settings): (1) every output of a successfully built
transaction is at or above the relay-rate dust threshold of its script, and
when the change position is reported as -1, the outputs are exactly the
recipient outputs — a would-be dust change is folded into the fee, never
emitted; (2) a recipient whose amount is below its dust threshold makes
construction fail with a reason, for every fee state. -/
theorem CreateTransaction_dust_policy (e : CreateTxEnv)
    (vecSend : List MCRecipient) (isData isSmart : Bool) (posReq : Int)
    (fuel : Nat)
    (hrd : e.dustThreshold e.changeScript ≤ e.dustThresholdDiscard e.changeScript)
    (hmfc : e.dustThreshold e.changeScript ≤ MIN_FINAL_CHANGE) :
    (∀ (vout : List MCTxOut) (fee : MCAmount) (pos : Int),
      CreateTransaction e vecSend isData isSmart posReq fuel =
        .ok vout fee pos →
      (∀ o ∈ vout, e.dustThreshold o.scriptPubKey ≤ o.nValue) ∧
      (pos = -1 → vout.length = vecSend.length)) ∧
    ((∃ r ∈ vecSend, r.fSubtractFeeFromAmount = false ∧
        r.nAmount < e.dustThreshold r.scriptPubKey) →
      ∀ (vout : List MCTxOut) (fee : MCAmount) (pos : Int),
        CreateTransaction e vecSend isData isSmart posReq fuel ≠
          .ok vout fee pos) := by
  constructor
  · intro vout fee pos h
    rw [CreateTransaction] at h
    rcases hsum : sumRecipientsChecked 0 vecSend with _ | nValue
    · rw [hsum] at h; cases h
    · rw [hsum] at h
      dsimp only at h
      by_cases he : vecSend.isEmpty = true ∧ isData = false ∧ isSmart = false
      · rw [if_pos he] at h; cases h
      · rw [if_neg he] at h
        exact createTxLoop_no_dust e vecSend nValue _ posReq hrd hmfc
          fuel 0 true 0 0 vout fee pos h
  · intro hdr vout fee pos h
    rw [CreateTransaction] at h
    rcases hsum : sumRecipientsChecked 0 vecSend with _ | nValue
    · rw [hsum] at h; cases h
    · rw [hsum] at h
      dsimp only at h
      by_cases he : vecSend.isEmpty = true ∧ isData = false ∧ isSmart = false
      · rw [if_pos he] at h; cases h
      · rw [if_neg he] at h
        exact createTxLoop_dust_recipient_fails e vecSend nValue _ posReq hdr
          fuel 0 true 0 0 vout fee pos h

/-- A concrete construction environment: dust thresholds of 546 base units,
one available 0.07-coin input, flat 100-byte transactions, a global flat fee
of 1000 per kB (yielding 100000 for 100 bytes under the spec-modelled
rate × size fee). -/
def witCreateTxEnv : CreateTxEnv where
  dustThreshold := fun _ => 546
  dustThresholdDiscard := fun _ => 546
  selectCoins := fun _ => some [7000000]
  txSize := fun _ _ => 100
  cfg :=
    { payTxFee := ⟨1000⟩
      nTxConfirmTarget := 6
      fallbackFee := ⟨20000⟩
      minTxFee := ⟨0⟩
      minRelayTxFee := ⟨0⟩
      maxTxFee := 10000000000
      estimateSmartFee := fun _ _ => ⟨0⟩
      mempoolMinFee := fun _ => 0 }
  cc :=
    { m_feerate := none
      fOverrideFeeRate := false
      m_confirm_target := none
      signalRbf := false
      m_fee_mode := .UNSET }
  changeScript := 99
  changeProtoSize := 34
  randInt := fun _ => 0

/-- C4 witness: a concrete successful build — paying 0.05 coin from a
0.07-coin input at a fee of 100000 — emits a change output of 1900000 at
position 0 and a recipient output of 5000000, both above the 546 dust
threshold. -/
theorem CreateTransaction_dust_policy_witness :
    CreateTransaction witCreateTxEnv [⟨7, 5000000, false⟩] false false (-1) 5 =
      .ok [⟨1900000, 99⟩, ⟨5000000, 7⟩] 100000 0 ∧
    (∀ o ∈ [(⟨1900000, 99⟩ : MCTxOut), ⟨5000000, 7⟩],
      witCreateTxEnv.dustThreshold o.scriptPubKey ≤ o.nValue) := by
  have hrun : CreateTransaction witCreateTxEnv [⟨7, 5000000, false⟩] false false
      (-1) 5 = .ok [⟨1900000, 99⟩, ⟨5000000, 7⟩] 100000 0 := by decide
  refine ⟨hrun, ?_⟩
  exact ((CreateTransaction_dust_policy witCreateTxEnv [⟨7, 5000000, false⟩]
    false false (-1) 5 (by decide)
    (by norm_num [witCreateTxEnv, MIN_FINAL_CHANGE, MIN_CHANGE, CENT])).1
    [⟨1900000, 99⟩, ⟨5000000, 7⟩] 100000 0 hrun).1
